import Mathlib

/-!
Message content encryption (`server/store/encryption.go`) and the batch tool
(`server/tools/encrypt_messages.go`).

A shallow embedding of the encryption service, of the classifier `isEncrypted` and of the
record loop of the batch tool, followed by the properties proved about them.

Conventions of the embedding.

* A Go `string` and a Go `[]byte` are both byte sequences (`Bytes`); the conversions
  `[]byte(s)` and `string(b)` are the identity on the bytes.
* A Go function returning `(value, error)` returns a structure with the two components; a
  run-time panic (nil dereference, violated precondition of a library call) is the separate
  outcome `Outcome.panic`.
* The Go standard library (`encoding/json`, `encoding/base64`, `crypto/aes`,
  `crypto/cipher`) is a parameter `L : Lib` of every definition.  Theorems are stated for an
  arbitrary `L`, and name the library facts they rely on as hypotheses.  `refLib` is an
  executable instance (standard base64, a JSON reader and writer, a small stand-in cipher)
  on which concrete inputs are evaluated.
* `crypto/rand` and the message store are inputs of the definitions that use them.
-/

namespace Tinode

/-! ## Data model -/

/-- A byte. -/
abbrev Byte := Fin 256

/-- A byte sequence: Go `[]byte`, and also Go `string`. -/
abbrev Bytes := List Byte

/-- The byte with the given value (reduced modulo 256). -/
def byte (n : Nat) : Byte := ⟨n % 256, Nat.mod_lt n (by decide)⟩

/-- The bytes of a text literal, one byte per character (all literals used are ASCII). -/
def lit (s : String) : Bytes := s.toList.map fun c => byte c.toNat

/-- `EncryptedContent` of `encryption.go`: the stored form of an encrypted message content.
`Data` and `Nonce` are Go strings, `Encrypted` the flag identifying encrypted content. -/
structure EncryptedContent where
  Data : Bytes
  Nonce : Bytes
  Encrypted : Bool
deriving DecidableEq, Repr

/-- A value of Go type `any` held as message content.  `nil` is the nil interface;
`envelope p` is a value of dynamic type `*EncryptedContent` (`p = none` is the nil pointer,
which is not the nil interface); `str` is a Go string; `bool` is a `bool`; `num` is a number
with an integer value, of an integer type or a `float64`; `arr` is a `[]any` and `map` a
`map[string]any`; `chan` stands for a value `json.Marshal` rejects. -/
inductive Content where
  | nil
  | bool (b : Bool)
  | num (n : Int)
  | str (s : Bytes)
  | arr (xs : List Content)
  | map (kvs : List (Bytes × Content))
  | envelope (p : Option EncryptedContent)
  | chan
deriving Repr

/-- The errors built with `fmt.Errorf` in `encryption.go`, one constructor per call site, and
the error of a failed `MessageSave`. -/
inductive GoError where
  | emptyKey
  | keyLength (got : Nat)
  | aesCipher
  | gcmMode
  | marshal
  | nonce
  | decodeData
  | decodeNonce
  | decrypt
  | save
deriving DecidableEq, Repr

/-- The outcome of running Go code: it returns, or it panics. -/
inductive Outcome (α : Type) where
  | ret (a : α)
  | panic
deriving Repr

/-- The pair `(any, error)` returned by `EncryptContent` and `DecryptContent`. -/
structure GoRet where
  val : Content
  err : Option GoError
deriving Repr

/-- A `cipher.Block` returned by `aes.NewCipher`, identified by its key. -/
structure Block where
  key : Bytes
deriving DecidableEq, Repr

/-- A `cipher.AEAD` returned by `cipher.NewGCM`, identified by the key of its block. -/
structure AEAD where
  key : Bytes
deriving DecidableEq, Repr

/-- The nonce length of the GCM instances `cipher.NewGCM` returns (`gcmStandardNonceSize`). -/
def gcmStandardNonceSize : Nat := 12

/-- Method `NonceSize` of `cipher.AEAD`. -/
def AEAD.NonceSize (_a : AEAD) : Nat := gcmStandardNonceSize

/-- The standard-library operations the code calls.  `Marshal` is `json.Marshal` on an `any`
(`none` is an error); `UnmarshalAny` is `json.Unmarshal` into a nil `any`;
`UnmarshalEncryptedContent` is `json.Unmarshal` into a zero `EncryptedContent` (`none` is a
non-nil error, in which case the code ignores the structure); `EncodeToString` and
`DecodeString` are those of `base64.StdEncoding`; `NewCipher` is `aes.NewCipher`; `Seal` and
`Open` take the nonce, the text and the additional data (the destination is always nil) and
are consulted only for nonces of the right length. -/
structure Lib where
  Marshal : Content → Option Bytes
  UnmarshalAny : Bytes → Option Content
  UnmarshalEncryptedContent : Bytes → Option EncryptedContent
  EncodeToString : Bytes → Bytes
  DecodeString : Bytes → Option Bytes
  NewCipher : Bytes → Option Block
  NewGCM : Block → Option AEAD
  Seal : AEAD → Bytes → Bytes → Bytes → Bytes
  Open : AEAD → Bytes → Bytes → Bytes → Option Bytes

/-- Method `Seal` of a GCM instance: it panics ("incorrect nonce length given to GCM") when
the nonce does not have `NonceSize` bytes. -/
def gcmSeal (L : Lib) (a : AEAD) (nonce plaintext additionalData : Bytes) : Outcome Bytes :=
  if nonce.length = a.NonceSize then .ret (L.Seal a nonce plaintext additionalData) else .panic

/-- Method `Open` of a GCM instance: it panics ("incorrect nonce length given to GCM") when
the nonce does not have `NonceSize` bytes, and otherwise returns the plaintext or an error
(`none`). -/
def gcmOpen (L : Lib) (a : AEAD) (nonce ciphertext additionalData : Bytes) :
    Outcome (Option Bytes) :=
  if nonce.length = a.NonceSize then .ret (L.Open a nonce ciphertext additionalData) else .panic

/-- `EncryptionService` of `encryption.go`.  A nil `key` is the empty sequence; a nil `aead`
interface is `none`. -/
structure EncryptionService where
  enabled : Bool
  key : Bytes
  aead : Option AEAD
deriving DecidableEq, Repr

/-! ## `encryption.go` -/

/-- `NewEncryptionService(enabled, key)`: the pair `(*EncryptionService, error)`. -/
def NewEncryptionService (L : Lib) (enabled : Bool) (key : Bytes) :
    Option EncryptionService × Option GoError :=
  if !enabled then
    (some { enabled := false, key := [], aead := none }, none)
  else if key.length = 0 then
    (none, some .emptyKey)
  else if key.length ≠ 32 then
    (none, some (.keyLength key.length))
  else
    match L.NewCipher key with
    | none => (none, some .aesCipher)
    | some block =>
      match L.NewGCM block with
      | none => (none, some .gcmMode)
      | some aead => (some { enabled := true, key := key, aead := some aead }, none)

/-- `(*EncryptionService).IsEnabled`. -/
def EncryptionService.IsEnabled (es : EncryptionService) : Bool := es.enabled

/-- `(*EncryptionService).EncryptContent(content)`.  `draw` is the result of
`io.ReadFull(rand.Reader, nonce)`: `none` when the read reports an error, `some n` when it
filled the nonce buffer with the bytes `n`. -/
def EncryptionService.EncryptContent (L : Lib) (es : EncryptionService) (draw : Option Bytes)
    (content : Content) : Outcome GoRet :=
  if !es.enabled then
    .ret { val := content, err := none }
  else
    match L.Marshal content with
    | none => .ret { val := .nil, err := some .marshal }
    | some contentBytes =>
      match es.aead with
      | none => .panic
      | some aead =>
        match draw with
        | none => .ret { val := .nil, err := some .nonce }
        | some nonce =>
          match gcmSeal L aead nonce contentBytes [] with
          | .panic => .panic
          | .ret encrypted =>
            .ret { val := .envelope (some { Data := L.EncodeToString encrypted,
                                            Nonce := L.EncodeToString nonce,
                                            Encrypted := true }),
                   err := none }

/-- The first part of `DecryptContent`: the envelope the content resolves to.  `none` means
the content is returned as it is; `some p` is the pointer `encryptedContent` (`p = none` is a
nil pointer, which the type assertion accepts). -/
def resolveEnvelope (L : Lib) (content : Content) : Option (Option EncryptedContent) :=
  match content with
  | .envelope p => some p
  | .str contentStr =>
    match L.UnmarshalEncryptedContent contentStr with
    | some ec => if ec.Encrypted then some (some ec) else none
    | none => none
  | _ => none

/-- `(*EncryptionService).DecryptContent(content)`. -/
def EncryptionService.DecryptContent (L : Lib) (es : EncryptionService) (content : Content) :
    Outcome GoRet :=
  if !es.enabled then
    .ret { val := content, err := none }
  else
    match resolveEnvelope L content with
    | none => .ret { val := content, err := none }
    | some none => .panic
    | some (some encryptedContent) =>
      if !encryptedContent.Encrypted then
        .ret { val := content, err := none }
      else
        match L.DecodeString encryptedContent.Data with
        | none => .ret { val := .nil, err := some .decodeData }
        | some encryptedData =>
          match L.DecodeString encryptedContent.Nonce with
          | none => .ret { val := .nil, err := some .decodeNonce }
          | some nonce =>
            match es.aead with
            | none => .panic
            | some aead =>
              match gcmOpen L aead nonce encryptedData [] with
              | .panic => .panic
              | .ret none => .ret { val := .nil, err := some .decrypt }
              | .ret (some decryptedBytes) =>
                match L.UnmarshalAny decryptedBytes with
                | none => .ret { val := .str decryptedBytes, err := none }
                | some decryptedContent => .ret { val := decryptedContent, err := none }

/-! ## `encrypt_messages.go` -/

/-- `isEncrypted(content)`. -/
def isEncrypted (L : Lib) (content : Content) : Bool :=
  match content with
  | .nil => false
  | .envelope _ => true
  | .str contentStr =>
    match L.UnmarshalEncryptedContent contentStr with
    | some ec => ec.Encrypted
    | none => false
  | _ => false

/-- Modelled from the spec: `types.Message` is declared outside the files at hand; of a record
the loop uses its identifier (for log lines only) and its `Content`. -/
structure Message where
  Id : Nat
  Content : Content
deriving Repr

/-- The state of the loop over the fetched messages in `main`: the four counters, the number
of records visited so far, the `MessageSave` calls made so far (oldest first) and, record by
record, what the store holds after the visit (the saved record when its save succeeded, the
fetched record otherwise). -/
structure Run where
  processedMessages : Nat
  encryptedMessages : Nat
  decryptedMessages : Nat
  errors : Nat
  seen : Nat
  saveCalls : List Message
  stored : List Message
deriving Repr

/-- The state before the first record. -/
def Run.init : Run :=
  { processedMessages := 0, encryptedMessages := 0, decryptedMessages := 0, errors := 0,
    seen := 0, saveCalls := [], stored := [] }

/-- Modelled from the spec: the message store (`saveRecord(Record) -> Result`) is outside
the files at hand.  `MessageSave` is given the calls made before and the record, and returns
the error of the call (`none` is success). -/
abbrev Store := List Message → Message → Option GoError

/-- A store whose saves always succeed. -/
def Store.alwaysOk : Store := fun _ _ => none

/-- The random source seen from the loop: `rand i` is the result of the
`io.ReadFull(rand.Reader, nonce)` made while visiting record number `i`, if one is made. -/
abbrev Rand := Nat → Option Bytes

/-- The end of the loop body (lines 115-124): unless `dryRun`, save the record; count it as
processed when nothing failed.  `orig` is the record as fetched, `msg` the loop variable after
the codec step. -/
def saveStep (save : Store) (dryRun : Bool) (st : Run) (orig msg : Message) : Run :=
  if !dryRun then
    match save st.saveCalls msg with
    | some _ =>
      { st with errors := st.errors + 1, seen := st.seen + 1,
                saveCalls := st.saveCalls ++ [msg], stored := st.stored ++ [orig] }
    | none =>
      { st with processedMessages := st.processedMessages + 1, seen := st.seen + 1,
                saveCalls := st.saveCalls ++ [msg], stored := st.stored ++ [msg] }
  else
    { st with processedMessages := st.processedMessages + 1, seen := st.seen + 1,
              stored := st.stored ++ [orig] }

/-- The state after a codec error: `errors++; continue`. -/
def codecError (st : Run) (orig : Message) : Run :=
  { st with errors := st.errors + 1, seen := st.seen + 1, stored := st.stored ++ [orig] }

/-- The body of the loop `for _, msg := range messages` of `main` (lines 88-125), on the
service `store.GetEncryptionService()` returns. -/
def processMessage (L : Lib) (es : EncryptionService) (rand : Rand) (save : Store)
    (reverse dryRun : Bool) (st : Run) (msg : Message) : Outcome Run :=
  if reverse then
    if isEncrypted L msg.Content then
      match es.DecryptContent L msg.Content with
      | .panic => .panic
      | .ret r =>
        match r.err with
        | some _ => .ret (codecError st msg)
        | none =>
          .ret (saveStep save dryRun { st with decryptedMessages := st.decryptedMessages + 1 }
                  msg { msg with Content := r.val })
    else
      .ret (saveStep save dryRun st msg msg)
  else
    if !isEncrypted L msg.Content then
      match es.EncryptContent L (rand st.seen) msg.Content with
      | .panic => .panic
      | .ret r =>
        match r.err with
        | some _ => .ret (codecError st msg)
        | none =>
          .ret (saveStep save dryRun { st with encryptedMessages := st.encryptedMessages + 1 }
                  msg { msg with Content := r.val })
    else
      .ret (saveStep save dryRun st msg msg)

/-- The loop of `main` from a given state. -/
def mainLoop (L : Lib) (es : EncryptionService) (rand : Rand) (save : Store)
    (reverse dryRun : Bool) : List Message → Run → Outcome Run
  | [], st => .ret st
  | msg :: rest, st =>
    match processMessage L es rand save reverse dryRun st msg with
    | .panic => .panic
    | .ret st1 => mainLoop L es rand save reverse dryRun rest st1

/-- The loop of `main` with the state it has reached when it stops: the state after the last
record and `false` when the loop ends, the state before the record on which it panics and
`true` when it panics (the counters and the saves made up to the crash). -/
def loopTrace (L : Lib) (es : EncryptionService) (rand : Rand) (save : Store)
    (reverse dryRun : Bool) : List Message → Run → Run × Bool
  | [], st => (st, false)
  | msg :: rest, st =>
    match processMessage L es rand save reverse dryRun st msg with
    | .panic => (st, true)
    | .ret st1 => loopTrace L es rand save reverse dryRun rest st1

/-- A run of the tool on the fetched messages: the loop from the initial counters. -/
def runTool (L : Lib) (es : EncryptionService) (rand : Rand) (save : Store)
    (reverse dryRun : Bool) (messages : List Message) : Outcome Run :=
  mainLoop L es rand save reverse dryRun messages Run.init

/-- The summary `main` prints after the loop (lines 127-138): the total, and the counters.
Forward mode prints `encrypted`, reverse mode prints `decrypted`. -/
structure Report where
  total : Nat
  processed : Nat
  encrypted : Nat
  decrypted : Nat
  errors : Nat
deriving DecidableEq, Repr

/-- The summary of a run that reached the end of the loop; a run that panicked prints none. -/
def report (messages : List Message) : Outcome Run → Option Report
  | .panic => none
  | .ret st =>
    some { total := messages.length, processed := st.processedMessages,
           encrypted := st.encryptedMessages, decrypted := st.decryptedMessages,
           errors := st.errors }

/-! ## The loop body in two steps

The body of the loop is a codec step (lines 89-113) followed by the save step (lines 115-124).
`codecStep` names the first on its own; `processMessage_eq` below shows that `processMessage`
is the one followed by the other. -/

/-- What the codec step leaves: it failed (`errors++; continue`), or the loop variable holds
`msg`, `changed` telling whether the content was encrypted or decrypted. -/
inductive Codec where
  | failed
  | done (msg : Message) (changed : Bool)
deriving Repr

/-- The codec step of the loop body on a record, `draw` being the result of the nonce read
made for it. -/
def codecStep (L : Lib) (es : EncryptionService) (draw : Option Bytes) (reverse : Bool)
    (msg : Message) : Outcome Codec :=
  if reverse then
    if isEncrypted L msg.Content then
      match es.DecryptContent L msg.Content with
      | .panic => .panic
      | .ret r =>
        match r.err with
        | some _ => .ret .failed
        | none => .ret (.done { msg with Content := r.val } true)
    else .ret (.done msg false)
  else
    if !isEncrypted L msg.Content then
      match es.EncryptContent L draw msg.Content with
      | .panic => .panic
      | .ret r =>
        match r.err with
        | some _ => .ret .failed
        | none => .ret (.done { msg with Content := r.val } true)
    else .ret (.done msg false)

/-- The counters after a codec step that did not fail: the counter of the mode is incremented
when the content was changed. -/
def countChanged (reverse changed : Bool) (st : Run) : Run :=
  if changed then
    if reverse then { st with decryptedMessages := st.decryptedMessages + 1 }
    else { st with encryptedMessages := st.encryptedMessages + 1 }
  else st

/-- The number of records, numbered from `i`, whose codec step fails. -/
def countCodecErrors (L : Lib) (es : EncryptionService) (rand : Rand) (reverse : Bool) :
    Nat → List Message → Nat
  | _, [] => 0
  | i, msg :: rest =>
    (match codecStep L es (rand i) reverse msg with
     | .ret .failed => 1
     | _ => 0) + countCodecErrors L es rand reverse (i + 1) rest

/-- Whether the codec step of some record, numbered from `i`, panics. -/
def anyCodecPanic (L : Lib) (es : EncryptionService) (rand : Rand) (reverse : Bool) :
    Nat → List Message → Bool
  | _, [] => false
  | i, msg :: rest =>
    (match codecStep L es (rand i) reverse msg with
     | .panic => true
     | _ => false) || anyCodecPanic L es rand reverse (i + 1) rest

/-- The records, numbered from `i`, whose codec step does not fail, each as the codec step
leaves it, in the order of the list. -/
def expectedSaves (L : Lib) (es : EncryptionService) (rand : Rand) (reverse : Bool) :
    Nat → List Message → List Message
  | _, [] => []
  | i, msg :: rest =>
    (match codecStep L es (rand i) reverse msg with
     | .ret (.done m _) => [m]
     | _ => []) ++ expectedSaves L es rand reverse (i + 1) rest

/-- The number of failed calls when the store is asked to save the records of a list one
after the other, `before` being the calls already made. -/
def countSaveErrors (save : Store) : List Message → List Message → Nat
  | _, [] => 0
  | before, m :: rest =>
    (match save before m with
     | some _ => 1
     | none => 0) + countSaveErrors save (before ++ [m]) rest

/-! ## Library facts used as hypotheses -/

/-- Cipher construction succeeds for every 32-byte key. -/
def Lib.CipherConstructs (L : Lib) : Prop :=
  ∀ key : Bytes, key.length = 32 →
    ∃ block aead, L.NewCipher key = some block ∧ L.NewGCM block = some aead

/-- AEAD `Open` inverts `Seal` under the same key, nonce and additional data. -/
def Lib.OpenInvertsSeal (L : Lib) : Prop :=
  ∀ (a : AEAD) (nonce text additionalData : Bytes), nonce.length = a.NonceSize →
    L.Open a nonce (L.Seal a nonce text additionalData) additionalData = some text

/-- Base64 `DecodeString` inverts `EncodeToString`. -/
def Lib.DecodeInvertsEncode (L : Lib) : Prop :=
  ∀ b : Bytes, L.DecodeString (L.EncodeToString b) = some b

/-- JSON unmarshal-then-marshal of the marshalled bytes of `c` is stable: the bytes
`json.Marshal` gives for `c` unmarshal into a value that marshals to the same bytes. -/
def Lib.JsonStable (L : Lib) (c : Content) : Prop :=
  ∀ b : Bytes, L.Marshal c = some b → ∃ v, L.UnmarshalAny b = some v ∧ L.Marshal v = some b

/-- JSON `null`, the serialisation of the nil interface, unmarshals into the nil interface. -/
def Lib.NullIsNil (L : Lib) : Prop :=
  ∀ b : Bytes, L.Marshal .nil = some b → L.UnmarshalAny b = some .nil

/-- An `EncryptedContent` structure has a serialisation, and the serialisation unmarshals
into a structure with the same `encrypted` flag. -/
def Lib.FlagSurvives (L : Lib) : Prop :=
  ∀ ec : EncryptedContent, ∃ b ec1, L.Marshal (.envelope (some ec)) = some b ∧
    L.UnmarshalEncryptedContent b = some ec1 ∧ ec1.Encrypted = ec.Encrypted

/-- The base64 encoding of the empty sequence is the empty string. -/
def Lib.EncodesEmpty (L : Lib) : Prop := L.EncodeToString [] = []

/-- `Seal` returns the text followed by a tag of sixteen bytes (the tag size of GCM). -/
def Lib.SealAppendsTag (L : Lib) : Prop :=
  ∀ (a : AEAD) (nonce text additionalData : Bytes),
    (L.Seal a nonce text additionalData).length = text.length + 16

/-- An envelope whose fields are base64 text and whose flag is set has a serialisation, and
the serialisation unmarshals into the same envelope. -/
def Lib.EnvelopesReadBack (L : Lib) : Prop :=
  ∀ d n : Bytes, ∃ b,
    L.Marshal (.envelope (some { Data := L.EncodeToString d, Nonce := L.EncodeToString n,
                                 Encrypted := true })) = some b ∧
    L.UnmarshalEncryptedContent b
      = some { Data := L.EncodeToString d, Nonce := L.EncodeToString n, Encrypted := true }

/-- `json.Unmarshal` into an `any` never stores a `*EncryptedContent`: it stores nil, a
`bool`, a `float64`, a `string`, a `[]any` or a `map[string]any`. -/
def Lib.UnmarshalGivesJson (L : Lib) : Prop :=
  ∀ (b : Bytes) (v : Content), L.UnmarshalAny b = some v → ∀ p, v ≠ .envelope p

/-! ## A reference instance of the library

`refLib` implements the library interface by executable definitions: the standard base64
alphabet with padding, a JSON writer and reader for the shapes of `Content`, and a small
keyed stand-in for AES-256-GCM with the same interface (12-byte nonce, 16-byte tag).  It is
used to evaluate the code on concrete inputs.  Numbers are integers, and bytes above 127 in
strings are copied as they are. -/

/-- The alphabet of `base64.StdEncoding`. -/
def b64Alphabet : Bytes :=
  lit "ABCDEFGHIJKLMNOPQRSTUVWXYZabcdefghijklmnopqrstuvwxyz0123456789+/"

/-- The character of a 6-bit value. -/
def b64Char (v : Nat) : Byte := b64Alphabet.getD (v % 64) 0

/-- The 6-bit value of a character of the alphabet. -/
def b64Val (c : Byte) : Option Nat :=
  if 65 ≤ c.val ∧ c.val ≤ 90 then some (c.val - 65)
  else if 97 ≤ c.val ∧ c.val ≤ 122 then some (c.val - 97 + 26)
  else if 48 ≤ c.val ∧ c.val ≤ 57 then some (c.val - 48 + 52)
  else if c.val = 43 then some 62
  else if c.val = 47 then some 63
  else none

/-- `base64.StdEncoding.EncodeToString`: three bytes give four characters, the last group
is padded with `=` (61). -/
def b64Encode : Bytes → Bytes
  | [] => []
  | [a] => [b64Char (a.val / 4), b64Char (a.val % 4 * 16), 61, 61]
  | [a, b] =>
    [b64Char (a.val / 4), b64Char (a.val % 4 * 16 + b.val / 16), b64Char (b.val % 16 * 4), 61]
  | a :: b :: c :: rest =>
    b64Char (a.val / 4) :: b64Char (a.val % 4 * 16 + b.val / 16)
      :: b64Char (b.val % 16 * 4 + c.val / 64) :: b64Char (c.val % 64) :: b64Encode rest

/-- Decoding of the groups of four characters; padding (`=`, 61) is accepted at the end of
the last group only. -/
def b64DecodeGroups : Bytes → Option Bytes
  | [] => some []
  | a :: b :: c :: d :: rest =>
    match b64Val a, b64Val b with
    | some x, some y =>
      if rest = [] ∧ c = 61 ∧ d = 61 then some [byte (x * 4 + y / 16)]
      else
        match b64Val c with
        | none => none
        | some z =>
          if rest = [] ∧ d = 61 then some [byte (x * 4 + y / 16), byte (y % 16 * 16 + z / 4)]
          else
            match b64Val d, b64DecodeGroups rest with
            | some w, some out =>
              some (byte (x * 4 + y / 16) :: byte (y % 16 * 16 + z / 4)
                      :: byte (z % 4 * 64 + w) :: out)
            | _, _ => none
    | _, _ => none
  | _ => none

/-- `base64.StdEncoding.DecodeString`: carriage returns and line feeds are skipped. -/
def b64Decode (s : Bytes) : Option Bytes :=
  b64DecodeGroups (s.filter fun c => c ≠ 10 ∧ c ≠ 13)

/-- The decimal digits of a natural number. -/
def natDigits (n : Nat) : Bytes := (Nat.toDigits 10 n).map fun c => byte c.toNat

/-- A hexadecimal digit (lower case). -/
def hexDigit (v : Nat) : Byte := if v < 10 then byte (48 + v) else byte (87 + v)

/-- The bytes `json.Marshal` writes for one byte of a string: quote and backslash are
escaped, so are control characters (backspace, form feed, line feed, carriage return and tab
by their short escapes) and `<`, `>`, `&`.  A byte of 128 or more is copied: the writer is
faithful on valid UTF-8 without the code points U+2028 and U+2029. -/
def jsonEscape (c : Byte) : Bytes :=
  if c = 34 then [92, 34]
  else if c = 92 then [92, 92]
  else if c = 8 then [92, 98]
  else if c = 12 then [92, 102]
  else if c = 10 then [92, 110]
  else if c = 13 then [92, 114]
  else if c = 9 then [92, 116]
  else if c < 32 ∨ c = 60 ∨ c = 62 ∨ c = 38 then
    [92, 117, 48, 48, hexDigit (c.val / 16), hexDigit (c.val % 16)]
  else [c]

/-- A JSON string literal. -/
def jsonQuote (s : Bytes) : Bytes := 34 :: (s.flatMap jsonEscape ++ [34])

/-- Comparison of two strings, byte by byte. -/
def bytesLt : Bytes → Bytes → Bool
  | [], [] => false
  | [], _ :: _ => true
  | _ :: _, [] => false
  | a :: as, b :: bs => if a < b then true else if b < a then false else bytesLt as bs

/-- Insertion of a key into a list sorted by key; an equal key is replaced. -/
def insertKey {α : Type} (k : Bytes) (v : α) : List (Bytes × α) → List (Bytes × α)
  | [] => [(k, v)]
  | (k1, v1) :: rest =>
    if bytesLt k k1 then (k, v) :: (k1, v1) :: rest
    else if bytesLt k1 k then (k1, v1) :: insertKey k v rest
    else (k, v) :: rest

/-- The entries of a Go map sorted by key, the order in which `json.Marshal` writes them. -/
def sortKeys {α : Type} (kvs : List (Bytes × α)) : List (Bytes × α) :=
  kvs.foldl (fun acc kv => insertKey kv.1 kv.2 acc) []

/-- The items of an array or of an object, separated by commas. -/
def joinComma : List Bytes → Bytes
  | [] => []
  | [a] => a
  | a :: b :: rest => a ++ 44 :: joinComma (b :: rest)

/-- The serialisation of an `EncryptedContent` structure (fields in declaration order). -/
def marshalEncryptedContent (ec : EncryptedContent) : Bytes :=
  lit "\x7b\"data\":" ++ jsonQuote ec.Data ++ lit ",\"nonce\":" ++ jsonQuote ec.Nonce
    ++ lit ",\"encrypted\":" ++ (if ec.Encrypted then lit "true" else lit "false") ++ lit "\x7d"

mutual
/-- `json.Marshal` on the shapes of `Content`. -/
def jsonMarshal : Content → Option Bytes
  | .nil => some (lit "null")
  | .bool b => some (if b then lit "true" else lit "false")
  | .num n => some (if n < 0 then 45 :: natDigits n.natAbs else natDigits n.natAbs)
  | .str s => some (jsonQuote s)
  | .arr xs => (jsonMarshalElems xs).map fun items => 91 :: (joinComma items ++ [93])
  | .map kvs =>
    (jsonMarshalMembers kvs).map fun members =>
      123 :: (joinComma ((sortKeys members).map fun kv => jsonQuote kv.1 ++ 58 :: kv.2) ++ [125])
  | .envelope none => some (lit "null")
  | .envelope (some ec) => some (marshalEncryptedContent ec)
  | .chan => none
/-- The serialisations of the elements of an array. -/
def jsonMarshalElems : List Content → Option (List Bytes)
  | [] => some []
  | x :: rest =>
    match jsonMarshal x, jsonMarshalElems rest with
    | some a, some b => some (a :: b)
    | _, _ => none
/-- The serialisations of the values of a map, with their keys. -/
def jsonMarshalMembers : List (Bytes × Content) → Option (List (Bytes × Bytes))
  | [] => some []
  | (k, x) :: rest =>
    match jsonMarshal x, jsonMarshalMembers rest with
    | some a, some b => some ((k, a) :: b)
    | _, _ => none
end

/-- JSON white space: space, tab, line feed, carriage return. -/
def isSpace (c : Byte) : Bool := c = 32 || c = 9 || c = 10 || c = 13

/-- The input after leading white space. -/
def skipSpace : Bytes → Bytes
  | [] => []
  | c :: rest => if isSpace c then skipSpace rest else c :: rest

/-- A decimal digit. -/
def isDigit (c : Byte) : Bool := decide (48 ≤ c.val) && decide (c.val ≤ 57)

/-- The value of a sequence of decimal digits. -/
def digitsVal (ds : Bytes) : Nat := ds.foldl (fun acc d => acc * 10 + (d.val - 48)) 0

/-- A JSON number.  Only integer literals are read; a fraction, an exponent or a negative
zero is reported as an error. -/
def parseNumber (s : Bytes) : Option (Int × Bytes) :=
  let neg := s.head? = some 45
  let s1 := if neg then s.drop 1 else s
  let ds := s1.takeWhile isDigit
  let rest := s1.dropWhile isDigit
  if ds = [] then none
  else if 1 < ds.length ∧ ds.head? = some 48 then none
  else if rest.head? = some 46 ∨ rest.head? = some 101 ∨ rest.head? = some 69 then none
  else if neg ∧ digitsVal ds = 0 then none
  else some (if neg then -(digitsVal ds : Int) else (digitsVal ds : Int), rest)

/-- The value of a hexadecimal digit. -/
def hexVal (c : Byte) : Option Nat :=
  if 48 ≤ c.val ∧ c.val ≤ 57 then some (c.val - 48)
  else if 97 ≤ c.val ∧ c.val ≤ 102 then some (c.val - 87)
  else if 65 ≤ c.val ∧ c.val ≤ 70 then some (c.val - 55)
  else none

/-- The UTF-8 bytes of a code point of the basic plane; surrogates are reported as an
error. -/
def utf8Encode (cp : Nat) : Option Bytes :=
  if cp < 128 then some [byte cp]
  else if cp < 2048 then some [byte (192 + cp / 64), byte (128 + cp % 64)]
  else if 55296 ≤ cp ∧ cp < 57344 then none
  else some [byte (224 + cp / 4096), byte (128 + cp / 64 % 64), byte (128 + cp % 64)]

/-- The byte a short escape stands for. -/
def unescape (c : Byte) : Option Byte :=
  if c = 34 ∨ c = 92 ∨ c = 47 then some c
  else if c = 98 then some 8
  else if c = 102 then some 12
  else if c = 110 then some 10
  else if c = 114 then some 13
  else if c = 116 then some 9
  else none

/-- The rest of a JSON string after its opening quote: the bytes of the string and the input
after the closing quote. -/
def parseStringBody : Nat → Bytes → Option (Bytes × Bytes)
  | 0, _ => none
  | _ + 1, [] => none
  | fuel + 1, c :: rest =>
    if c = 34 then some ([], rest)
    else if c = 92 then
      match rest with
      | 117 :: h1 :: h2 :: h3 :: h4 :: rest1 =>
        match hexVal h1, hexVal h2, hexVal h3, hexVal h4 with
        | some a, some b, some c1, some d =>
          match utf8Encode (a * 4096 + b * 256 + c1 * 16 + d), parseStringBody fuel rest1 with
          | some u, some (str, out) => some (u ++ str, out)
          | _, _ => none
        | _, _, _, _ => none
      | e :: rest1 =>
        match unescape e, parseStringBody fuel rest1 with
        | some u, some (str, out) => some (u :: str, out)
        | _, _ => none
      | [] => none
    else if c < 32 then none
    else
      match parseStringBody fuel rest with
      | some (str, out) => some (c :: str, out)
      | none => none

mutual
/-- A JSON value: the value read and the input after it.  Objects keep their members in the
order of the text. -/
def parseValue : Nat → Bytes → Option (Content × Bytes)
  | 0, _ => none
  | fuel + 1, s =>
    match skipSpace s with
    | 110 :: 117 :: 108 :: 108 :: rest => some (.nil, rest)
    | 116 :: 114 :: 117 :: 101 :: rest => some (.bool true, rest)
    | 102 :: 97 :: 108 :: 115 :: 101 :: rest => some (.bool false, rest)
    | 34 :: rest =>
      match parseStringBody (rest.length + 1) rest with
      | some (str, out) => some (.str str, out)
      | none => none
    | 91 :: rest =>
      match skipSpace rest with
      | 93 :: out => some (.arr [], out)
      | rest1 =>
        match parseElems fuel rest1 with
        | some (xs, out) => some (.arr xs, out)
        | none => none
    | 123 :: rest =>
      match skipSpace rest with
      | 125 :: out => some (.map [], out)
      | rest1 =>
        match parseMembers fuel rest1 with
        | some (kvs, out) => some (.map kvs, out)
        | none => none
    | s1 =>
      match parseNumber s1 with
      | some (n, out) => some (.num n, out)
      | none => none
/-- The elements of a non-empty array, up to the closing bracket. -/
def parseElems : Nat → Bytes → Option (List Content × Bytes)
  | 0, _ => none
  | fuel + 1, s =>
    match parseValue fuel s with
    | none => none
    | some (x, rest) =>
      match skipSpace rest with
      | 44 :: rest1 =>
        match parseElems fuel rest1 with
        | some (xs, out) => some (x :: xs, out)
        | none => none
      | 93 :: out => some ([x], out)
      | _ => none
/-- The members of a non-empty object, up to the closing brace. -/
def parseMembers : Nat → Bytes → Option (List (Bytes × Content) × Bytes)
  | 0, _ => none
  | fuel + 1, s =>
    match skipSpace s with
    | 34 :: rest =>
      match parseStringBody (rest.length + 1) rest with
      | none => none
      | some (k, rest1) =>
        match skipSpace rest1 with
        | 58 :: rest2 =>
          match parseValue fuel rest2 with
          | none => none
          | some (x, rest3) =>
            match skipSpace rest3 with
            | 44 :: rest4 =>
              match parseMembers fuel rest4 with
              | some (kvs, out) => some ((k, x) :: kvs, out)
              | none => none
            | 125 :: out => some ([(k, x)], out)
            | _ => none
        | _ => none
    | _ => none
end

/-- A whole JSON text: one value, white space around it. -/
def parseJSON (s : Bytes) : Option Content :=
  match parseValue (2 * s.length + 2) s with
  | some (v, rest) => if skipSpace rest = [] then some v else none
  | none => none

/-- The weight of the last of the 53 significant bits of `n`: the least power of two `u` with
`n / u < 2^53` (the fuel bounds the exponent, as the range of `float64` does). -/
def float64Unit : Nat → Nat → Nat
  | 0, _ => 1
  | fuel + 1, n => if n < 2 ^ 53 then 1 else 2 * float64Unit fuel (n / 2)

/-- The integer a `float64` holds when it is given the natural number `n`: `n` itself below
2^53, and otherwise `n` rounded to 53 significant bits, ties to even. -/
def roundFloat64 (n : Nat) : Nat :=
  let unit := float64Unit 1024 n
  let q := n / unit
  let r := n % unit
  if 2 * r < unit then q * unit
  else if unit < 2 * r then (q + 1) * unit
  else if q % 2 = 0 then q * unit
  else (q + 1) * unit

mutual
/-- The value `json.Unmarshal` stores into an `any` for a parsed text: a number becomes a
`float64`; in a map a repeated key keeps its last value, and the entries are listed by key. -/
def toAny : Content → Content
  | .num n => .num (if n < 0 then -(roundFloat64 n.natAbs : Int) else (roundFloat64 n.natAbs : Int))
  | .arr xs => .arr (toAnyElems xs)
  | .map kvs => .map (sortKeys (toAnyMembers kvs))
  | c => c
/-- `toAny` on the elements of an array. -/
def toAnyElems : List Content → List Content
  | [] => []
  | x :: rest => toAny x :: toAnyElems rest
/-- `toAny` on the values of an object. -/
def toAnyMembers : List (Bytes × Content) → List (Bytes × Content)
  | [] => []
  | (k, x) :: rest => (k, toAny x) :: toAnyMembers rest
end

/-- `json.Unmarshal(b, &v)` for a nil `v` of type `any`. -/
def jsonUnmarshalAny (b : Bytes) : Option Content := (parseJSON b).map toAny

/-- ASCII lower case. -/
def toLower (c : Byte) : Byte := if 65 ≤ c.val ∧ c.val ≤ 90 then byte (c.val + 32) else c

/-- Whether an object key names the field with the given tag: the match is case-insensitive. -/
def keyMatches (k : Bytes) (tag : String) : Bool := k.map toLower == lit tag

/-- The effect of one object member on the structure being filled: a field takes a value of
its own type, `null` leaves it as it is, a value of another type is an error, and a key that
names no field is ignored. -/
def setField (ec : EncryptedContent) (k : Bytes) (v : Content) : Option EncryptedContent :=
  if keyMatches k "data" then
    match v with
    | .str s => some { ec with Data := s }
    | .nil => some ec
    | _ => none
  else if keyMatches k "nonce" then
    match v with
    | .str s => some { ec with Nonce := s }
    | .nil => some ec
    | _ => none
  else if keyMatches k "encrypted" then
    match v with
    | .bool b => some { ec with Encrypted := b }
    | .nil => some ec
    | _ => none
  else some ec

/-- The members of an object applied in the order of the text. -/
def setFields (ec : EncryptedContent) : List (Bytes × Content) → Option EncryptedContent
  | [] => some ec
  | (k, v) :: rest =>
    match setField ec k v with
    | none => none
    | some ec1 => setFields ec1 rest

/-- `json.Unmarshal(b, &ec)` for a zero `ec` of type `EncryptedContent`: an object fills the
fields, `null` changes nothing, any other value is an error. -/
def jsonUnmarshalEncryptedContent (b : Bytes) : Option EncryptedContent :=
  match parseJSON b with
  | some (.map kvs) => setFields { Data := [], Nonce := [], Encrypted := false } kvs
  | some .nil => some { Data := [], Nonce := [], Encrypted := false }
  | _ => none

/-- The key-stream byte of the stand-in cipher at position `i`. -/
def streamByte (key nonce : Bytes) (i : Nat) : Nat :=
  ((key.getD (i % 32) 0).val + (nonce.getD (i % 12) 0).val + i) % 256

/-- The text under the key stream, from position `i` on; `add` selects the direction. -/
def applyStream (key nonce : Bytes) (add : Bool) : Nat → Bytes → Bytes
  | _, [] => []
  | i, c :: rest =>
    (if add then byte (c.val + streamByte key nonce i)
     else byte (c.val + 256 - streamByte key nonce i))
      :: applyStream key nonce add (i + 1) rest

/-- The 16-byte tag of the stand-in cipher: a keyed checksum of nonce, text and additional
data. -/
def standInTag (key nonce text additionalData : Bytes) : Bytes :=
  let h := (key ++ nonce ++ additionalData ++ text).foldl
    (fun acc c => (acc * 31 + c.val + 7) % 65521) 1
  (List.range 16).map fun j => byte (h / (j + 1) + j * 17)

/-- `Seal` of the stand-in cipher: the text under the key stream, followed by the tag. -/
def standInSeal (a : AEAD) (nonce plaintext additionalData : Bytes) : Bytes :=
  applyStream a.key nonce true 0 plaintext ++ standInTag a.key nonce plaintext additionalData

/-- `Open` of the stand-in cipher: an error when the input is shorter than the tag or the
tag does not match. -/
def standInOpen (a : AEAD) (nonce ciphertext additionalData : Bytes) : Option Bytes :=
  if ciphertext.length < 16 then none
  else
    let text := applyStream a.key nonce false 0 (ciphertext.take (ciphertext.length - 16))
    if ciphertext.drop (ciphertext.length - 16) = standInTag a.key nonce text additionalData
    then some text else none

/-- `aes.NewCipher`: the key must have 16, 24 or 32 bytes. -/
def aesNewCipher (key : Bytes) : Option Block :=
  if key.length = 16 ∨ key.length = 24 ∨ key.length = 32 then some { key := key } else none

/-- The reference instance of the library. -/
def refLib : Lib :=
  { Marshal := jsonMarshal
    UnmarshalAny := jsonUnmarshalAny
    UnmarshalEncryptedContent := jsonUnmarshalEncryptedContent
    EncodeToString := b64Encode
    DecodeString := b64Decode
    NewCipher := aesNewCipher
    NewGCM := fun block => some { key := block.key }
    Seal := standInSeal
    Open := standInOpen }

/-- The key of the tests of `encryption_test.go`: the bytes 0, 1, ..., 31. -/
def testKey : Bytes := (List.range 32).map byte

/-- The service `NewEncryptionService(true, testKey)` returns on the reference library. -/
def testService : EncryptionService :=
  { enabled := true, key := testKey, aead := some { key := testKey } }

/-- A nonce of twelve bytes. -/
def testNonce : Bytes := [1, 2, 3, 4, 5, 6, 7, 8, 9, 10, 11, 12]

/-- A string content that is the serialisation of an envelope whose nonce field decodes to
three bytes: `{"data":"AAAA","nonce":"AAAA","encrypted":true}`. -/
def shortNonceText : Bytes :=
  lit "\x7b\"data\":\"AAAA\",\"nonce\":\"AAAA\",\"encrypted\":true\x7d"

/-- The envelope `shortNonceText` serialises. -/
def shortNonceEnvelope : EncryptedContent :=
  { Data := lit "AAAA", Nonce := lit "AAAA", Encrypted := true }

/-- The envelope `EncryptContent` returns on the reference library for the string
`Hello, World!` under `testService` and `testNonce`. -/
def helloEnvelope : EncryptedContent :=
  { Data := lit "I0xsdnl/PzZwi5GOfT1BpWMDXDHFfYt9DxZzE+jnCQ==",
    Nonce := lit "AQIDBAUGBwgJCgsM",
    Encrypted := true }

/-- The envelope `helloEnvelope` with the first character of its data changed. -/
def tamperedEnvelope : EncryptedContent :=
  { helloEnvelope with Data := lit "J0xsdnl/PzZwi5GOfT1BpWMDXDHFfYt9DxZzE+jnCQ==" }

/-- Three records as in the batch scenario of the specification: two plaintext strings and
one record that already holds an envelope. -/
def threeRecords : List Message :=
  [{ Id := 1, Content := .str (lit "hello") },
   { Id := 2, Content := .str (lit "world") },
   { Id := 3, Content := .envelope (some helloEnvelope) }]

/-- Two plaintext records. -/
def twoRecords : List Message :=
  [{ Id := 1, Content := .str (lit "hello") },
   { Id := 2, Content := .str (lit "world") }]

/-- A random source that delivers `testNonce` at every read. -/
def testRand : Rand := fun _ => some testNonce

/-- The summary of a run in the given mode over what a first, forward run left in the store
(saves succeeding in both runs). -/
def reportAfterForward (L : Lib) (es : EncryptionService) (rand1 rand2 : Rand)
    (reverse : Bool) (messages : List Message) : Option Report :=
  match runTool L es rand1 Store.alwaysOk false false messages with
  | .panic => none
  | .ret st1 => report st1.stored (runTool L es rand2 Store.alwaysOk reverse false st1.stored)

/-- The summary of a reverse run over what a first, reverse run left in the store (saves
succeeding in both runs). -/
def reportAfterReverse (L : Lib) (es : EncryptionService) (rand1 rand2 : Rand)
    (messages : List Message) : Option Report :=
  match runTool L es rand1 Store.alwaysOk true false messages with
  | .panic => none
  | .ret st1 => report st1.stored (runTool L es rand2 Store.alwaysOk true false st1.stored)

/-- The serialisation of `helloEnvelope`, a Go string:
`{"data":"I0xs...CQ==","nonce":"AQIDBAUGBwgJCgsM","encrypted":true}`. -/
def envelopeText : Bytes := marshalEncryptedContent helloEnvelope

/-- The envelope `EncryptContent` returns on the reference library for the string
`envelopeText` under `testService` and `testNonce`: an envelope whose plaintext is itself the
serialisation of an envelope. -/
def nestedEnvelope : EncryptedContent :=
  { Data := lit ("I39jLHFxh3d1Pll+O2VPmpiMmZpghLGUqJ1sgYyml3drnIZ/bYRzenuelLJ6iL+ku4lytLuTpJOW"
      ++ "uIGOtX7N0bOrsKpzjrN8kqWgnp+huK2r49a8rNPiv9Gap9qj6fXt093X3tLUz5iz8PH33vmhCRXPNRKr"
      ++ "QngXAB9mzEvdfw=="),
    Nonce := lit "AQIDBAUGBwgJCgsM",
    Encrypted := true }

/-- One record holding `nestedEnvelope`. -/
def nestedRecord : List Message := [{ Id := 1, Content := .envelope (some nestedEnvelope) }]

/-- An envelope whose plaintext, the bytes `plain text`, is not JSON. -/
def rawEnvelope : EncryptedContent :=
  { Data := lit "cXBoc3swh3uRkLVrXmBocxINRqsuyncz+so=",
    Nonce := lit "AQIDBAUGBwgJCgsM",
    Encrypted := true }

/-- A typed envelope whose `encrypted` flag is false. -/
def unflaggedEnvelope : EncryptedContent := { Data := [], Nonce := [], Encrypted := false }

/-- A string that serialises an envelope without the `encrypted` key:
`{"data":"AAAA","nonce":"AAAA"}`. -/
def flaglessText : Bytes := lit "\x7b\"data\":\"AAAA\",\"nonce\":\"AAAA\"\x7d"

/-- A string that serialises an envelope whose `encrypted` key is false. -/
def unflaggedText : Bytes := marshalEncryptedContent unflaggedEnvelope

/-- Two records: a string that serialises an envelope with a three-byte nonce, then a
plaintext string. -/
def shortNonceRecords : List Message :=
  [{ Id := 1, Content := .str shortNonceText },
   { Id := 2, Content := .str (lit "hello") }]

/-- A map with the three keys of an envelope. -/
def envelopeLikeMap : Content :=
  .map [(lit "data", .str (lit "AAAA")), (lit "nonce", .str (lit "AAAA")),
        (lit "encrypted", .bool true)]

/-- A second nonce of twelve bytes, different from `testNonce`. -/
def otherNonce : Bytes := [12, 11, 10, 9, 8, 7, 6, 5, 4, 3, 2, 1]

/-- Three records for a reverse run: the envelope of `Hello, World!`, a plaintext string, and
an envelope whose data was altered. -/
def mixedRecords : List Message :=
  [{ Id := 1, Content := .envelope (some helloEnvelope) },
   { Id := 2, Content := .str (lit "hello") },
   { Id := 3, Content := .envelope (some tamperedEnvelope) }]

/-- A content holding the integer 2^53 + 1 (as a Go `int64`), which no `float64` holds. -/
def bigNumber : Content := .num 9007199254740993

/-- One record holding `bigNumber`. -/
def bigRecord : List Message := [{ Id := 1, Content := bigNumber }]

/-- The serialisations of the contents of the records of a list. -/
def serialisations (L : Lib) (msgs : List Message) : List (Option Bytes) :=
  msgs.map fun m => L.Marshal m.Content

/-- The serialisations of what the store holds after a forward run followed by a reverse run
(saves succeeding in both runs); `none` when one of the runs panics. -/
def serialisedAfterForwardReverse (L : Lib) (es : EncryptionService) (rand1 rand2 : Rand)
    (messages : List Message) : Option (List (Option Bytes)) :=
  match runTool L es rand1 Store.alwaysOk false false messages with
  | .panic => none
  | .ret st1 =>
    match runTool L es rand2 Store.alwaysOk true false st1.stored with
    | .panic => none
    | .ret st2 => some (serialisations L st2.stored)

/-- The envelope `EncryptContent` returns on the reference library for `bigNumber` under
`testService` and `testNonce`. -/
def bigEnvelope : EncryptedContent :=
  { Data := lit "OjQ3QT5JTEhOUFZWSVVYVXZMSVD1aAkF6nFuxF4uKUY=",
    Nonce := lit "AQIDBAUGBwgJCgsM",
    Encrypted := true }

/-! ## Properties of `encryption.go` -/

/-- A service returned by `NewEncryptionService(true, key)` is enabled, holds a cipher
instance, and its key has 32 bytes. -/
theorem enabled_of_new (L : Lib) (key : Bytes) (es : EncryptionService)
    (hnew : NewEncryptionService L true key = (some es, none)) :
    es.enabled = true ∧ key.length = 32 ∧ ∃ aead, es.aead = some aead := by
  unfold NewEncryptionService at hnew
  simp only [Bool.not_true, Bool.false_eq_true, if_false] at hnew
  split at hnew
  · simp at hnew
  · split at hnew
    · simp at hnew
    · rename_i h32
      split at hnew
      · simp at hnew
      · split at hnew
        · simp at hnew
        · rename_i aead _
          simp only [Prod.mk.injEq, Option.some.injEq, and_true] at hnew
          subst hnew
          exact ⟨rfl, by simpa using h32, aead, rfl⟩

/-- C3: `NewEncryptionService(enabled, key)` returns an error exactly when `enabled` is true
and the key does not have 32 bytes, and then returns no service; with `enabled` true and a
32-byte key it returns an enabled service; with `enabled` false it returns a disabled service
for every key.  Cipher construction is assumed to succeed for every 32-byte key. -/
theorem NewEncryptionService_fails_iff (L : Lib) (hcipher : L.CipherConstructs)
    (enabled : Bool) (key : Bytes) :
    ((NewEncryptionService L enabled key).2 ≠ none ↔ (enabled = true ∧ key.length ≠ 32)) ∧
    ((NewEncryptionService L enabled key).2 ≠ none → (NewEncryptionService L enabled key).1 = none) ∧
    (enabled = true → key.length = 32 →
      ∃ es, NewEncryptionService L enabled key = (some es, none) ∧ es.IsEnabled = true) ∧
    (enabled = false →
      ∃ es, NewEncryptionService L enabled key = (some es, none) ∧ es.IsEnabled = false) := by
  cases enabled
  · simp [NewEncryptionService, EncryptionService.IsEnabled]
  · by_cases h32 : key.length = 32
    · obtain ⟨block, aead, hb, ha⟩ := hcipher key h32
      simp [NewEncryptionService, EncryptionService.IsEnabled, h32, hb, ha]
    · by_cases h0 : key.length = 0
      · simp [NewEncryptionService, h32, h0]
      · simp [NewEncryptionService, h32, h0]

/-- The reference library constructs a cipher for every 32-byte key. -/
theorem refLib_cipherConstructs : refLib.CipherConstructs := by
  intro key h32
  exact ⟨{ key := key }, { key := key }, by simp [refLib, aesNewCipher, h32], rfl⟩

/-- C3 at the key of the tests, on the reference library. -/
theorem NewEncryptionService_fails_iff_witness :
    refLib.CipherConstructs ∧
    ((NewEncryptionService refLib true testKey).2 ≠ none ↔
        (true = true ∧ testKey.length ≠ 32)) ∧
    ((NewEncryptionService refLib true testKey).2 ≠ none →
        (NewEncryptionService refLib true testKey).1 = none) ∧
    (true = true → testKey.length = 32 →
      ∃ es, NewEncryptionService refLib true testKey = (some es, none) ∧ es.IsEnabled = true) ∧
    (true = false →
      ∃ es, NewEncryptionService refLib true testKey = (some es, none) ∧ es.IsEnabled = false) :=
  ⟨refLib_cipherConstructs, NewEncryptionService_fails_iff refLib refLib_cipherConstructs true testKey⟩

/-- C2: a disabled service returns the content it is given, with a nil error, from both
`EncryptContent` and `DecryptContent`, whatever the content, the key field and the cipher
field (also when the cipher field is nil, where a use of it would panic). -/
theorem disabled_is_identity (L : Lib) (key : Bytes) (aead : Option AEAD) (draw : Option Bytes)
    (c : Content) :
    EncryptionService.EncryptContent L { enabled := false, key := key, aead := aead } draw c
      = .ret { val := c, err := none } ∧
    EncryptionService.DecryptContent L { enabled := false, key := key, aead := aead } c
      = .ret { val := c, err := none } ∧
    ∃ es, NewEncryptionService L false key = (some es, none) ∧
      es.EncryptContent L draw c = .ret { val := c, err := none } ∧
      es.DecryptContent L c = .ret { val := c, err := none } := by
  refine ⟨rfl, rfl, _, rfl, rfl, rfl⟩

/-- `EncryptContent` on an enabled service holding a cipher, for a content that marshals
and a drawn nonce of twelve bytes: the envelope it returns. -/
theorem encrypt_eq (L : Lib) (es : EncryptionService) (aead : AEAD)
    (hen : es.enabled = true) (ha : es.aead = some aead) (nonce : Bytes)
    (hn : nonce.length = 12) (c : Content) (b : Bytes) (hm : L.Marshal c = some b) :
    es.EncryptContent L (some nonce) c =
      .ret { val := .envelope (some { Data := L.EncodeToString (L.Seal aead nonce b []),
                                      Nonce := L.EncodeToString nonce,
                                      Encrypted := true }),
             err := none } := by
  simp [EncryptionService.EncryptContent, hen, ha, hm, gcmSeal, AEAD.NonceSize,
    gcmStandardNonceSize, hn]

/-- `DecryptContent` on an enabled service, from the point where the content has resolved to
an envelope with the flag set. -/
theorem decrypt_resolved (L : Lib) (es : EncryptionService) (hen : es.enabled = true)
    (c : Content) (ec : EncryptedContent) (hres : resolveEnvelope L c = some (some ec))
    (hflag : ec.Encrypted = true) :
    es.DecryptContent L c =
      match L.DecodeString ec.Data with
      | none => .ret { val := .nil, err := some .decodeData }
      | some encryptedData =>
        match L.DecodeString ec.Nonce with
        | none => .ret { val := .nil, err := some .decodeNonce }
        | some nonce =>
          match es.aead with
          | none => .panic
          | some aead =>
            match gcmOpen L aead nonce encryptedData [] with
            | .panic => .panic
            | .ret none => .ret { val := .nil, err := some .decrypt }
            | .ret (some decryptedBytes) =>
              match L.UnmarshalAny decryptedBytes with
              | none => .ret { val := .str decryptedBytes, err := none }
              | some decryptedContent => .ret { val := decryptedContent, err := none } := by
  simp [EncryptionService.DecryptContent, hen, hres, hflag]

/-- The envelope a typed, non-nil `*EncryptedContent` resolves to is itself. -/
theorem resolve_typed (L : Lib) (ec : EncryptedContent) :
    resolveEnvelope L (.envelope (some ec)) = some (some ec) := rfl

/-- A string resolves to the structure it unmarshals into when the flag of that structure
is set. -/
theorem resolve_str (L : Lib) (s : Bytes) (ec : EncryptedContent)
    (hu : L.UnmarshalEncryptedContent s = some ec) (hflag : ec.Encrypted = true) :
    resolveEnvelope L (.str s) = some (some ec) := by
  simp [resolveEnvelope, hu, hflag]

/-- C1: round trip.  For a service returned by `NewEncryptionService(true, key)`, a content
`c` that marshals and a drawn nonce of twelve bytes, `EncryptContent` returns an envelope
without error and `DecryptContent` of that envelope returns, without error, a value whose
serialisation is the serialisation of `c`; when `c` is nil the value is nil.  The library
facts assumed: `Open` inverts `Seal`, base64 decoding inverts encoding, unmarshal-then-marshal
of the marshalled bytes of `c` is stable, and JSON `null` unmarshals into nil. -/
theorem decrypt_encrypt_roundtrip (L : Lib) (key : Bytes) (es : EncryptionService)
    (hnew : NewEncryptionService L true key = (some es, none))
    (haead : L.OpenInvertsSeal) (hb64 : L.DecodeInvertsEncode) (hnull : L.NullIsNil)
    (c : Content) (hm : L.Marshal c ≠ none) (hjson : L.JsonStable c)
    (nonce : Bytes) (hn : nonce.length = 12) :
    ∃ env v, es.EncryptContent L (some nonce) c = .ret { val := env, err := none } ∧
      es.DecryptContent L env = .ret { val := v, err := none } ∧
      L.Marshal v = L.Marshal c ∧ (c = .nil → v = .nil) := by
  obtain ⟨hen, _, aead, ha⟩ := enabled_of_new L key es hnew
  obtain ⟨b, hb⟩ := Option.ne_none_iff_exists'.mp hm
  obtain ⟨v, hv, hvm⟩ := hjson b hb
  refine ⟨_, v, encrypt_eq L es aead hen ha nonce hn c b hb, ?_, by rw [hvm, hb], ?_⟩
  · rw [decrypt_resolved L es hen _ _ (resolve_typed L _) rfl]
    simp [hb64 _, ha, gcmOpen, AEAD.NonceSize, gcmStandardNonceSize, hn,
      haead aead nonce b [] (by simpa [AEAD.NonceSize, gcmStandardNonceSize] using hn), hv]
  · intro hc
    subst hc
    have := hnull b hb
    rw [hv] at this
    exact Option.some.inj this

/-! ## The reference library satisfies the library facts -/

/-- A byte is the byte of its value. -/
theorem byte_val (c : Byte) : byte c.val = c := by
  apply Fin.ext
  simp [byte, Nat.mod_eq_of_lt c.isLt]

/-- The value of `byte n`. -/
theorem val_byte (n : Nat) : (byte n).val = n % 256 := rfl

/-- The key stream keeps the length of the text. -/
theorem applyStream_length (key nonce : Bytes) (add : Bool) (t : Bytes) :
    ∀ i, (applyStream key nonce add i t).length = t.length := by
  induction t with
  | nil => intro i; rfl
  | cons c rest ih => intro i; simp [applyStream, ih]

/-- Removing the key stream undoes adding it. -/
theorem applyStream_inv (key nonce : Bytes) (t : Bytes) :
    ∀ i, applyStream key nonce false i (applyStream key nonce true i t) = t := by
  induction t with
  | nil => intro i; rfl
  | cons c rest ih =>
    intro i
    have hk : streamByte key nonce i < 256 := Nat.mod_lt _ (by decide)
    have hc := c.isLt
    simp only [applyStream, if_true, Bool.false_eq_true, if_false, ih, List.cons.injEq, and_true]
    apply Fin.ext
    simp only [val_byte]
    omega

/-- The tag has sixteen bytes. -/
theorem standInTag_length (key nonce text ad : Bytes) :
    (standInTag key nonce text ad).length = 16 := by
  simp [standInTag]

/-- On the reference library `Open` inverts `Seal`. -/
theorem refLib_openInvertsSeal : refLib.OpenInvertsSeal := by
  intro a nonce text ad _
  show standInOpen a nonce (standInSeal a nonce text ad) ad = some text
  have hlen : (applyStream a.key nonce true 0 text).length = text.length :=
    applyStream_length _ _ _ _ _
  simp [standInOpen, standInSeal, standInTag_length, hlen, applyStream_inv]

/-- The value of a character of the alphabet is the value it was chosen for. -/
theorem b64Val_b64Char (v : Nat) (hv : v < 64) : b64Val (b64Char v) = some v := by
  have h : ∀ w : Fin 64, b64Val (b64Char w.val) = some w.val := by decide
  exact h ⟨v, hv⟩

/-- A character of the alphabet is neither padding nor a line break. -/
theorem b64Char_ne (v : Nat) : b64Char v ≠ 61 ∧ b64Char v ≠ 10 ∧ b64Char v ≠ 13 := by
  have h : ∀ w : Fin 64, b64Char w.val ≠ 61 ∧ b64Char w.val ≠ 10 ∧ b64Char w.val ≠ 13 := by
    decide
  have := h ⟨v % 64, Nat.mod_lt _ (by decide)⟩
  simpa [b64Char] using this

/-- The encoder writes no line break. -/
theorem b64Encode_no_break : ∀ b : Bytes, ∀ x ∈ b64Encode b, x ≠ 10 ∧ x ≠ 13 := by
  intro b
  induction b using b64Encode.induct with
  | case1 => simp [b64Encode]
  | case2 a =>
    intro x hx
    simp only [b64Encode, List.mem_cons, List.not_mem_nil, or_false] at hx
    rcases hx with h | h | h | h <;> subst h <;>
      first | exact ⟨(b64Char_ne _).2.1, (b64Char_ne _).2.2⟩ | decide
  | case3 a b =>
    intro x hx
    simp only [b64Encode, List.mem_cons, List.not_mem_nil, or_false] at hx
    rcases hx with h | h | h | h <;> subst h <;>
      first | exact ⟨(b64Char_ne _).2.1, (b64Char_ne _).2.2⟩ | decide
  | case4 a b c rest ih =>
    intro x hx
    simp only [b64Encode, List.mem_cons] at hx
    rcases hx with h | h | h | h | h
    · subst h; exact ⟨(b64Char_ne _).2.1, (b64Char_ne _).2.2⟩
    · subst h; exact ⟨(b64Char_ne _).2.1, (b64Char_ne _).2.2⟩
    · subst h; exact ⟨(b64Char_ne _).2.1, (b64Char_ne _).2.2⟩
    · subst h; exact ⟨(b64Char_ne _).2.1, (b64Char_ne _).2.2⟩
    · exact ih x h

/-- Decoding the groups written by the encoder gives the bytes back. -/
theorem b64DecodeGroups_encode : ∀ b : Bytes, b64DecodeGroups (b64Encode b) = some b := by
  intro b
  induction b using b64Encode.induct with
  | case1 => rfl
  | case2 a =>
    have ha := a.isLt
    have h1 := b64Val_b64Char (a.val / 4) (by omega)
    have h2 := b64Val_b64Char (a.val % 4 * 16) (by omega)
    simp only [b64Encode, b64DecodeGroups, h1, h2]
    simp only [and_self, if_true, Option.some.injEq, List.cons.injEq, and_true]
    apply Fin.ext
    simp only [val_byte]
    omega
  | case3 a b =>
    have ha := a.isLt
    have hb := b.isLt
    have h1 := b64Val_b64Char (a.val / 4) (by omega)
    have h2 := b64Val_b64Char (a.val % 4 * 16 + b.val / 16) (by omega)
    have h3 := b64Val_b64Char (b.val % 16 * 4) (by omega)
    have hne := (b64Char_ne (b.val % 16 * 4)).1
    simp only [b64Encode, b64DecodeGroups, h1, h2, h3, hne, and_false, and_true, if_false,
      if_true, true_and, Option.some.injEq, List.cons.injEq]
    refine ⟨?_, ?_⟩ <;> apply Fin.ext <;> simp only [val_byte] <;> omega
  | case4 a b c rest ih =>
    have ha := a.isLt
    have hb := b.isLt
    have hc := c.isLt
    have h1 := b64Val_b64Char (a.val / 4) (by omega)
    have h2 := b64Val_b64Char (a.val % 4 * 16 + b.val / 16) (by omega)
    have h3 := b64Val_b64Char (b.val % 16 * 4 + c.val / 64) (by omega)
    have h4 := b64Val_b64Char (c.val % 64) (by omega)
    have hne3 := (b64Char_ne (b.val % 16 * 4 + c.val / 64)).1
    have hne4 := (b64Char_ne (c.val % 64)).1
    simp only [b64Encode, b64DecodeGroups, h1, h2, h3, h4, hne3, hne4, ih, and_false,
      if_false, Option.some.injEq, List.cons.injEq, and_true]
    refine ⟨?_, ?_, ?_⟩ <;> apply Fin.ext <;> simp only [val_byte] <;> omega

/-- On the reference library base64 decoding inverts encoding. -/
theorem refLib_decodeInvertsEncode : refLib.DecodeInvertsEncode := by
  intro b
  show b64Decode (b64Encode b) = some b
  have hf : (b64Encode b).filter (fun c => c ≠ 10 ∧ c ≠ 13) = b64Encode b := by
    apply List.filter_eq_self.mpr
    intro x hx
    simpa using b64Encode_no_break b x hx
  simp only [b64Decode, hf, b64DecodeGroups_encode]

/-- The value of a hexadecimal digit written by `hexDigit`. -/
theorem hexVal_hexDigit (v : Nat) (hv : v < 16) : hexVal (hexDigit v) = some v := by
  have h : ∀ w : Fin 16, hexVal (hexDigit w.val) = some w.val := by decide
  exact h ⟨v, hv⟩

/-- Reading one escaped byte followed by the rest of a string body. -/
theorem parseStringBody_escape (c : Byte) (tail : Bytes) (fuel : Nat) (r : Option (Bytes × Bytes))
    (ih : ∀ f, tail.length < f → parseStringBody f tail = r)
    (hf : (jsonEscape c ++ tail).length < fuel) :
    parseStringBody fuel (jsonEscape c ++ tail) =
      match r with
      | some (str, out) => some (c :: str, out)
      | none => none := by
  unfold jsonEscape at hf ⊢
  split_ifs at hf ⊢ with h1 h2 h7 h8 h3 h4 h5 h6
  · subst h1
    obtain ⟨f, rfl⟩ : ∃ f, fuel = f + 1 := ⟨fuel - 1, by simp at hf; omega⟩
    have := ih f (by simp at hf; omega)
    simp [parseStringBody, unescape, this]
    cases r <;> rfl
  · subst h2
    obtain ⟨f, rfl⟩ : ∃ f, fuel = f + 1 := ⟨fuel - 1, by simp at hf; omega⟩
    have := ih f (by simp at hf; omega)
    simp [parseStringBody, unescape, this]
    cases r <;> rfl
  · subst h7
    obtain ⟨f, rfl⟩ : ∃ f, fuel = f + 1 := ⟨fuel - 1, by simp at hf; omega⟩
    have := ih f (by simp at hf; omega)
    simp [parseStringBody, unescape, this]
    cases r <;> rfl
  · subst h8
    obtain ⟨f, rfl⟩ : ∃ f, fuel = f + 1 := ⟨fuel - 1, by simp at hf; omega⟩
    have := ih f (by simp at hf; omega)
    simp [parseStringBody, unescape, this]
    cases r <;> rfl
  · subst h3
    obtain ⟨f, rfl⟩ : ∃ f, fuel = f + 1 := ⟨fuel - 1, by simp at hf; omega⟩
    have := ih f (by simp at hf; omega)
    simp [parseStringBody, unescape, this]
    cases r <;> rfl
  · subst h4
    obtain ⟨f, rfl⟩ : ∃ f, fuel = f + 1 := ⟨fuel - 1, by simp at hf; omega⟩
    have := ih f (by simp at hf; omega)
    simp [parseStringBody, unescape, this]
    cases r <;> rfl
  · subst h5
    obtain ⟨f, rfl⟩ : ∃ f, fuel = f + 1 := ⟨fuel - 1, by simp at hf; omega⟩
    have := ih f (by simp at hf; omega)
    simp [parseStringBody, unescape, this]
    cases r <;> rfl
  · obtain ⟨f, rfl⟩ : ∃ f, fuel = f + 1 := ⟨fuel - 1, by simp at hf; omega⟩
    have := ih f (by simp at hf; omega)
    have hc : c.val < 128 := by
      rcases h6 with h | h | h | h
      · have : c.val < 32 := h
        omega
      · subst h; decide
      · subst h; decide
      · subst h; decide
    have hx0 : hexVal 48 = some 0 := by decide
    have hx1 := hexVal_hexDigit (c.val / 16) (by omega)
    have hx2 := hexVal_hexDigit (c.val % 16) (by omega)
    have hcp : c.val / 16 * 16 + c.val % 16 = c.val := by omega
    simp [parseStringBody, hx0, hx1, hx2, hcp, utf8Encode, hc, byte_val, this]
    cases r <;> rfl
  · obtain ⟨f, rfl⟩ : ∃ f, fuel = f + 1 := ⟨fuel - 1, by simp at hf; omega⟩
    have := ih f (by simp at hf; omega)
    have h32 : ¬ c < 32 := fun h => h6 (Or.inl h)
    simp [parseStringBody, h1, h2, h32, this]
    cases r <;> rfl


/-- Reading back the body of a string written by `jsonQuote`. -/
theorem parseStringBody_flatMap (s rest : Bytes) :
    ∀ fuel, (s.flatMap jsonEscape ++ 34 :: rest).length < fuel →
      parseStringBody fuel (s.flatMap jsonEscape ++ 34 :: rest) = some (s, rest) := by
  induction s with
  | nil =>
    intro fuel hf
    obtain ⟨f, rfl⟩ : ∃ f, fuel = f + 1 := ⟨fuel - 1, by omega⟩
    simp [parseStringBody]
  | cons c s ih =>
    intro fuel hf
    simp only [List.flatMap_cons, List.append_assoc] at hf ⊢
    rw [parseStringBody_escape c _ fuel (some (s, rest)) ih hf]

/-- White space is skipped up to the first byte that is none. -/
theorem skipSpace_cons (c : Byte) (rest : Bytes) (hc : isSpace c = false) :
    skipSpace (c :: rest) = c :: rest := by
  simp [skipSpace, hc]

/-- Reading a string literal written by `jsonQuote`. -/
theorem parseValue_jsonQuote (fuel : Nat) (s rest : Bytes) :
    parseValue (fuel + 1) (jsonQuote s ++ rest) = some (.str s, rest) := by
  simp only [jsonQuote, List.cons_append, List.append_assoc, List.singleton_append,
    List.nil_append]
  rw [parseValue, skipSpace_cons _ _ (by decide)]
  simp only []
  rw [parseStringBody_flatMap s rest _ (Nat.lt_succ_self _)]

/-- Reading an object member whose value is a string and which a comma follows. -/
theorem parseMembers_str_comma (fuel : Nat) (k v rest : Bytes) :
    parseMembers (fuel + 2) (jsonQuote k ++ 58 :: (jsonQuote v ++ 44 :: rest)) =
      match parseMembers (fuel + 1) rest with
      | some (kvs, out) => some ((k, .str v) :: kvs, out)
      | none => none := by
  have hv := parseValue_jsonQuote fuel v (44 :: rest)
  simp only [jsonQuote, List.cons_append, List.append_assoc, List.singleton_append,
    List.nil_append] at hv ⊢
  rw [parseMembers, skipSpace_cons _ _ (by decide)]
  simp only []
  rw [parseStringBody_flatMap k _ _ (Nat.lt_succ_self _)]
  simp only []
  rw [skipSpace_cons _ _ (by decide)]
  simp only []
  rw [hv]
  simp only []
  rw [skipSpace_cons _ _ (by decide)]

/-- Reading the last member of an object when its value is a boolean. -/
theorem parseMembers_bool_close (fuel : Nat) (k rest : Bytes) (b : Bool) :
    parseMembers (fuel + 2)
        (jsonQuote k ++ 58 :: ((if b then lit "true" else lit "false") ++ 125 :: rest)) =
      some ([(k, .bool b)], rest) := by
  simp only [jsonQuote, List.cons_append, List.append_assoc, List.singleton_append,
    List.nil_append]
  rw [parseMembers, skipSpace_cons _ _ (by decide)]
  simp only []
  rw [parseStringBody_flatMap k _ _ (Nat.lt_succ_self _)]
  simp only []
  rw [skipSpace_cons _ _ (by decide)]
  simp only []
  cases b
  · have hl : lit "false" = [102, 97, 108, 115, 101] := by decide
    simp only [Bool.false_eq_true, if_false, hl, List.cons_append, List.nil_append]
    rw [parseValue, skipSpace_cons _ _ (by decide)]
    simp only []
    rw [skipSpace_cons _ _ (by decide)]
  · have hl : lit "true" = [116, 114, 117, 101] := by decide
    simp only [if_true, hl, List.cons_append, List.nil_append]
    rw [parseValue, skipSpace_cons _ _ (by decide)]
    simp only []
    rw [skipSpace_cons _ _ (by decide)]

/-- Reading an object whose first member starts right after the brace. -/
theorem parseValue_object (fuel : Nat) (k r : Bytes) :
    parseValue (fuel + 1) (123 :: (jsonQuote k ++ r)) =
      match parseMembers fuel (jsonQuote k ++ r) with
      | some (kvs, out) => some (.map kvs, out)
      | none => none := by
  simp only [jsonQuote, List.cons_append]
  rw [parseValue, skipSpace_cons _ _ (by decide)]
  simp only []
  rw [skipSpace_cons _ _ (by decide)]

/-- The reader on the serialisation of an `EncryptedContent` structure: the three members,
in the order of the fields. -/
theorem parseJSON_marshalEncryptedContent (ec : EncryptedContent) :
    parseJSON (marshalEncryptedContent ec) =
      some (.map [(lit "data", .str ec.Data), (lit "nonce", .str ec.Nonce),
                  (lit "encrypted", .bool ec.Encrypted)]) := by
  have h1 : lit "\x7b\"data\":" = 123 :: (jsonQuote (lit "data") ++ [58]) := by decide
  have h2 : lit ",\"nonce\":" = 44 :: (jsonQuote (lit "nonce") ++ [58]) := by decide
  have h3 : lit ",\"encrypted\":" = 44 :: (jsonQuote (lit "encrypted") ++ [58]) := by decide
  have h4 : lit "\x7d" = [125] := by decide
  have hform : marshalEncryptedContent ec =
      123 :: (jsonQuote (lit "data") ++ 58 :: (jsonQuote ec.Data ++ 44 ::
        (jsonQuote (lit "nonce") ++ 58 :: (jsonQuote ec.Nonce ++ 44 ::
          (jsonQuote (lit "encrypted") ++ 58 ::
            ((if ec.Encrypted then lit "true" else lit "false") ++ 125 :: [])))))) := by
    simp only [marshalEncryptedContent, h1, h2, h3, h4, List.cons_append, List.append_assoc,
      List.singleton_append, List.nil_append]
  have hlen : 2 ≤ (marshalEncryptedContent ec).length := by
    rw [hform]
    simp only [List.length_cons, List.length_append]
    omega
  obtain ⟨f, hf⟩ : ∃ f, 2 * (marshalEncryptedContent ec).length + 2 = f + 5 :=
    ⟨2 * (marshalEncryptedContent ec).length - 3, by omega⟩
  unfold parseJSON
  rw [hf, hform, parseValue_object, parseMembers_str_comma, parseMembers_str_comma,
    parseMembers_bool_close]
  rfl

/-- On the reference library the serialisation of an `EncryptedContent` structure unmarshals
into the same structure. -/
theorem refLib_unmarshal_marshal (ec : EncryptedContent) :
    jsonUnmarshalEncryptedContent (marshalEncryptedContent ec) = some ec := by
  have hd : ∀ (e : EncryptedContent) s,
      setField e (lit "data") (.str s) = some { e with Data := s } := fun _ _ => rfl
  have hn : ∀ (e : EncryptedContent) s,
      setField e (lit "nonce") (.str s) = some { e with Nonce := s } := fun _ _ => rfl
  have he : ∀ (e : EncryptedContent) b,
      setField e (lit "encrypted") (.bool b) = some { e with Encrypted := b } := fun _ _ => rfl
  simp only [jsonUnmarshalEncryptedContent, parseJSON_marshalEncryptedContent, setFields, hd,
    hn, he]

/-- On the reference library the `encrypted` flag survives serialisation. -/
theorem refLib_flagSurvives : refLib.FlagSurvives := by
  intro ec
  exact ⟨marshalEncryptedContent ec, ec, rfl, refLib_unmarshal_marshal ec, rfl⟩

/-- On the reference library JSON `null` unmarshals into nil. -/
theorem refLib_nullIsNil : refLib.NullIsNil := by
  intro b hb
  have : b = lit "null" := by
    have h : jsonMarshal .nil = some b := hb
    simpa [jsonMarshal] using h.symm
  subst this
  rfl

/-- C4: evaluation of `DecryptContent` at inputs on which it panics.  On the service
`NewEncryptionService(true, testKey)` returns, the string content
`{"data":"AAAA","nonce":"AAAA","encrypted":true}` parses to an envelope with the flag set
whose nonce decodes to three bytes, and `Open` is called with that nonce: the call panics.  The
same holds for the typed envelope with these fields, and a nil `*EncryptedContent` is
dereferenced on every enabled service. -/
theorem DecryptContent_panics :
    NewEncryptionService refLib true testKey = (some testService, none) ∧
    refLib.UnmarshalEncryptedContent shortNonceText = some shortNonceEnvelope ∧
    refLib.DecodeString shortNonceEnvelope.Nonce = some [0, 0, 0] ∧
    testService.DecryptContent refLib (.str shortNonceText) = .panic ∧
    testService.DecryptContent refLib (.envelope (some shortNonceEnvelope)) = .panic ∧
    (∀ (L : Lib) (key : Bytes) (aead : Option AEAD),
      EncryptionService.DecryptContent L { enabled := true, key := key, aead := aead }
        (.envelope none) = .panic) := by
  refine ⟨by decide, by decide, by decide, by rfl, by rfl, fun _ _ _ => rfl⟩

/-- C1 on the reference library: the string `Hello, World!` under the key of the tests. -/
theorem decrypt_encrypt_roundtrip_witness :
    NewEncryptionService refLib true testKey = (some testService, none) ∧
    refLib.OpenInvertsSeal ∧ refLib.DecodeInvertsEncode ∧ refLib.NullIsNil ∧
    refLib.Marshal (.str (lit "Hello, World!")) ≠ none ∧
    refLib.JsonStable (.str (lit "Hello, World!")) ∧
    testNonce.length = 12 ∧
    ∃ env v,
      testService.EncryptContent refLib (some testNonce) (.str (lit "Hello, World!"))
        = .ret { val := env, err := none } ∧
      testService.DecryptContent refLib env = .ret { val := v, err := none } ∧
      refLib.Marshal v = refLib.Marshal (.str (lit "Hello, World!")) ∧
      (Content.str (lit "Hello, World!") = .nil → v = .nil) :=
  have hnew : NewEncryptionService refLib true testKey = (some testService, none) := by decide
  have hm : refLib.Marshal (.str (lit "Hello, World!")) ≠ none := by decide
  have hjson : refLib.JsonStable (.str (lit "Hello, World!")) := by
    intro b hb
    have hb1 : b = jsonQuote (lit "Hello, World!") := by
      have h : jsonMarshal (.str (lit "Hello, World!")) = some b := hb
      simpa [jsonMarshal] using h.symm
    subst hb1
    exact ⟨.str (lit "Hello, World!"), by rfl, by rfl⟩
  ⟨hnew, refLib_openInvertsSeal, refLib_decodeInvertsEncode, refLib_nullIsNil, hm, hjson,
    by decide,
    decrypt_encrypt_roundtrip refLib testKey testService hnew refLib_openInvertsSeal
      refLib_decodeInvertsEncode refLib_nullIsNil _ hm hjson testNonce (by decide)⟩

/-- C5: decoding fails atomically.  On a service returned by `NewEncryptionService(true, key)`,
for a content that is a typed envelope, or a string that unmarshals into one, with the flag
set: when the data field or the nonce field does not decode as base64, or both decode and
`Open` returns an error, `DecryptContent` returns a nil value together with an error (the
error of the step that failed). -/
theorem DecryptContent_fails_atomically (L : Lib) (key : Bytes) (es : EncryptionService)
    (hnew : NewEncryptionService L true key = (some es, none))
    (c : Content) (ec : EncryptedContent)
    (hc : c = .envelope (some ec) ∨ ∃ s, c = .str s ∧ L.UnmarshalEncryptedContent s = some ec)
    (hflag : ec.Encrypted = true)
    (hbad : L.DecodeString ec.Data = none ∨ L.DecodeString ec.Nonce = none ∨
      ∃ data nonce aead, L.DecodeString ec.Data = some data ∧
        L.DecodeString ec.Nonce = some nonce ∧ es.aead = some aead ∧
        gcmOpen L aead nonce data [] = .ret none) :
    ∃ e, es.DecryptContent L c = .ret { val := .nil, err := some e } ∧
      (e = .decodeData ∨ e = .decodeNonce ∨ e = .decrypt) := by
  obtain ⟨hen, _, aead, ha⟩ := enabled_of_new L key es hnew
  have hres : resolveEnvelope L c = some (some ec) := by
    rcases hc with h | ⟨s, h, hu⟩
    · subst h; rfl
    · subst h; exact resolve_str L s ec hu hflag
  rw [decrypt_resolved L es hen c ec hres hflag]
  rcases hbad with h | h | ⟨data, nonce, a, hd, hn, ha1, ho⟩
  · exact ⟨.decodeData, by simp [h], Or.inl rfl⟩
  · cases hd : L.DecodeString ec.Data with
    | none => exact ⟨.decodeData, by simp, Or.inl rfl⟩
    | some d => exact ⟨.decodeNonce, by simp [h], Or.inr (Or.inl rfl)⟩
  · exact ⟨.decrypt, by simp [hd, hn, ha1, ho], Or.inr (Or.inr rfl)⟩

set_option maxRecDepth 20000 in
/-- C5 on the reference library: an envelope produced by `EncryptContent` whose data was then
altered is rejected by `Open`, and `DecryptContent` returns the decryption error. -/
theorem DecryptContent_fails_atomically_witness :
    NewEncryptionService refLib true testKey = (some testService, none) ∧
    testService.EncryptContent refLib (some testNonce) (.str (lit "Hello, World!"))
      = .ret { val := .envelope (some helloEnvelope), err := none } ∧
    tamperedEnvelope.Encrypted = true ∧
    (∃ data nonce aead, refLib.DecodeString tamperedEnvelope.Data = some data ∧
        refLib.DecodeString tamperedEnvelope.Nonce = some nonce ∧
        testService.aead = some aead ∧ gcmOpen refLib aead nonce data [] = .ret none) ∧
    ∃ e, testService.DecryptContent refLib (.envelope (some tamperedEnvelope))
        = .ret { val := .nil, err := some e } ∧
      (e = .decodeData ∨ e = .decodeNonce ∨ e = .decrypt) :=
  have hnew : NewEncryptionService refLib true testKey = (some testService, none) := by decide
  have hopen : ∃ data nonce aead, refLib.DecodeString tamperedEnvelope.Data = some data ∧
      refLib.DecodeString tamperedEnvelope.Nonce = some nonce ∧
      testService.aead = some aead ∧ gcmOpen refLib aead nonce data [] = .ret none :=
    ⟨_, _, _, rfl, rfl, rfl, by rfl⟩
  ⟨hnew, by rfl, rfl, hopen,
    DecryptContent_fails_atomically refLib testKey testService hnew _ tamperedEnvelope
      (Or.inl rfl) rfl (Or.inr (Or.inr hopen))⟩

/-- C6: on an enabled service (whatever its cipher field, also a nil one) `DecryptContent`
returns the content it is given, with a nil error, when the content is nil, when it is
neither a typed envelope nor a string, when it is a string that does not unmarshal into an
envelope, when it is a string that unmarshals into an envelope whose flag is false, and when
it is a typed envelope whose flag is false.  Nothing is assumed of the base64 and cipher
operations of the library, which are not reached. -/
theorem DecryptContent_passes_plain (L : Lib) (es : EncryptionService)
    (hen : es.enabled = true) :
    es.DecryptContent L .nil = .ret { val := .nil, err := none } ∧
    (∀ c : Content, (∀ p, c ≠ .envelope p) → (∀ s, c ≠ .str s) →
      es.DecryptContent L c = .ret { val := c, err := none }) ∧
    (∀ s : Bytes, L.UnmarshalEncryptedContent s = none →
      es.DecryptContent L (.str s) = .ret { val := .str s, err := none }) ∧
    (∀ (s : Bytes) (ec : EncryptedContent), L.UnmarshalEncryptedContent s = some ec →
      ec.Encrypted = false →
      es.DecryptContent L (.str s) = .ret { val := .str s, err := none }) ∧
    (∀ ec : EncryptedContent, ec.Encrypted = false →
      es.DecryptContent L (.envelope (some ec))
        = .ret { val := .envelope (some ec), err := none }) := by
  refine ⟨?_, ?_, ?_, ?_, ?_⟩
  · simp [EncryptionService.DecryptContent, hen, resolveEnvelope]
  · intro c hp hs
    cases c with
    | envelope p => exact absurd rfl (hp p)
    | str s => exact absurd rfl (hs s)
    | _ => simp [EncryptionService.DecryptContent, hen, resolveEnvelope]
  · intro s hu
    simp [EncryptionService.DecryptContent, hen, resolveEnvelope, hu]
  · intro s ec hu hf
    simp [EncryptionService.DecryptContent, hen, resolveEnvelope, hu, hf]
  · intro ec hf
    simp [EncryptionService.DecryptContent, hen, resolveEnvelope, hf]

/-- C6 on the reference library: the string `Unencrypted message` of the tests, which is not
JSON, comes back unchanged. -/
theorem DecryptContent_passes_plain_witness :
    testService.enabled = true ∧
    refLib.UnmarshalEncryptedContent (lit "Unencrypted message") = none ∧
    testService.DecryptContent refLib (.str (lit "Unencrypted message"))
      = .ret { val := .str (lit "Unencrypted message"), err := none } :=
  ⟨rfl, by decide,
    (DecryptContent_passes_plain refLib testService rfl).2.2.1 _ (by decide)⟩

/-- C7: the classifier on the results of `EncryptContent`.  On a service returned by
`NewEncryptionService(true, key)`, for a content that marshals and a drawn nonce of twelve
bytes, `EncryptContent` returns a value that `isEncrypted` classifies as encrypted, and that
value has a serialisation which, held as a string, is classified as encrypted too (the
library fact assumed: the `encrypted` flag survives serialisation).  `isEncrypted` is false on
nil, on a string that does not unmarshal (as a string that is not JSON), and on a string that
unmarshals with the flag left false (as JSON without an `encrypted` field). -/
theorem isEncrypted_after_encrypt (L : Lib) (key : Bytes) (es : EncryptionService)
    (hnew : NewEncryptionService L true key = (some es, none)) (hflag : L.FlagSurvives)
    (c : Content) (hm : L.Marshal c ≠ none) (nonce : Bytes) (hn : nonce.length = 12) :
    (∃ env b, es.EncryptContent L (some nonce) c = .ret { val := env, err := none } ∧
      isEncrypted L env = true ∧ L.Marshal env = some b ∧ isEncrypted L (.str b) = true) ∧
    isEncrypted L .nil = false ∧
    (∀ s : Bytes, L.UnmarshalEncryptedContent s = none → isEncrypted L (.str s) = false) ∧
    (∀ (s : Bytes) (ec : EncryptedContent), L.UnmarshalEncryptedContent s = some ec →
      ec.Encrypted = false → isEncrypted L (.str s) = false) := by
  obtain ⟨hen, _, aead, ha⟩ := enabled_of_new L key es hnew
  obtain ⟨b, hb⟩ := Option.ne_none_iff_exists'.mp hm
  refine ⟨?_, rfl, ?_, ?_⟩
  · obtain ⟨sb, ec1, hs, hu, hf⟩ := hflag
      { Data := L.EncodeToString (L.Seal aead nonce b []), Nonce := L.EncodeToString nonce,
        Encrypted := true }
    refine ⟨_, sb, encrypt_eq L es aead hen ha nonce hn c b hb, rfl, hs, ?_⟩
    simp [isEncrypted, hu, hf]
  · intro s hu
    simp [isEncrypted, hu]
  · intro s ec hu hf
    simp [isEncrypted, hu, hf]

/-- C7 on the reference library: the string `Hello, World!` is encrypted into an envelope
classified as encrypted, as is the serialisation of that envelope; the strings `hello` (not
JSON) and `{"text":"hi"}` (JSON without an `encrypted` field) are classified as not
encrypted. -/
theorem isEncrypted_after_encrypt_witness :
    NewEncryptionService refLib true testKey = (some testService, none) ∧
    refLib.FlagSurvives ∧
    refLib.Marshal (.str (lit "Hello, World!")) ≠ none ∧
    testNonce.length = 12 ∧
    ((∃ env b,
        testService.EncryptContent refLib (some testNonce) (.str (lit "Hello, World!"))
          = .ret { val := env, err := none } ∧
        isEncrypted refLib env = true ∧ refLib.Marshal env = some b ∧
        isEncrypted refLib (.str b) = true) ∧
      isEncrypted refLib .nil = false ∧
      (∀ s : Bytes, refLib.UnmarshalEncryptedContent s = none →
        isEncrypted refLib (.str s) = false) ∧
      (∀ (s : Bytes) (ec : EncryptedContent), refLib.UnmarshalEncryptedContent s = some ec →
        ec.Encrypted = false → isEncrypted refLib (.str s) = false)) ∧
    refLib.UnmarshalEncryptedContent (lit "hello") = none ∧
    isEncrypted refLib (.str (lit "hello")) = false ∧
    refLib.UnmarshalEncryptedContent (lit "\x7b\"text\":\"hi\"\x7d")
      = some { Data := [], Nonce := [], Encrypted := false } ∧
    isEncrypted refLib (.str (lit "\x7b\"text\":\"hi\"\x7d")) = false :=
  have hnew : NewEncryptionService refLib true testKey = (some testService, none) := by decide
  have hm : refLib.Marshal (.str (lit "Hello, World!")) ≠ none := by decide
  ⟨hnew, refLib_flagSurvives, hm, by decide,
    isEncrypted_after_encrypt refLib testKey testService hnew refLib_flagSurvives _ hm
      testNonce (by decide),
    by decide, by decide, by decide, by decide⟩

/-! ## Properties of the loop of `encrypt_messages.go` -/

/-- The loop body is the codec step followed by the save step. -/
theorem processMessage_eq (L : Lib) (es : EncryptionService) (rand : Rand) (save : Store)
    (reverse dryRun : Bool) (st : Run) (msg : Message) :
    processMessage L es rand save reverse dryRun st msg =
      match codecStep L es (rand st.seen) reverse msg with
      | .panic => .panic
      | .ret .failed => .ret (codecError st msg)
      | .ret (.done m changed) =>
        .ret (saveStep save dryRun (countChanged reverse changed st) msg m) := by
  unfold processMessage codecStep
  cases reverse
  · by_cases h : isEncrypted L msg.Content = true
    · simp [h, countChanged]
    · simp only [Bool.not_eq_true] at h
      simp only [Bool.false_eq_true, if_false, h, Bool.not_false, if_true]
      cases es.EncryptContent L (rand st.seen) msg.Content with
      | panic => rfl
      | ret r =>
        cases hr : r.err with
        | some e => simp [hr]
        | none => simp [hr, countChanged]
  · by_cases h : isEncrypted L msg.Content = true
    · simp only [if_true, h]
      cases es.DecryptContent L msg.Content with
      | panic => rfl
      | ret r =>
        cases hr : r.err with
        | some e => simp [hr]
        | none => simp [hr, countChanged]
    · simp only [Bool.not_eq_true] at h
      simp [h, countChanged]

/-- A dry run and a run that saves into a store whose saves succeed, from states with the
same counters: both panic, or both end, with the same counters again; the dry run has made
no save call, its error counter has grown by the number of failed codec steps, and every
record has been counted once as processed or as an error. -/
theorem dry_wet_loop (L : Lib) (es : EncryptionService) (rand : Rand) (save : Store)
    (reverse : Bool) :
    ∀ (msgs : List Message) (d w : Run),
      d.processedMessages = w.processedMessages → d.encryptedMessages = w.encryptedMessages →
      d.decryptedMessages = w.decryptedMessages → d.errors = w.errors → d.seen = w.seen →
      match mainLoop L es rand save reverse true msgs d,
            mainLoop L es rand Store.alwaysOk reverse false msgs w with
      | .ret d1, .ret w1 =>
        d1.processedMessages = w1.processedMessages ∧
        d1.encryptedMessages = w1.encryptedMessages ∧
        d1.decryptedMessages = w1.decryptedMessages ∧ d1.errors = w1.errors ∧
        d1.saveCalls = d.saveCalls ∧
        d1.errors = d.errors + countCodecErrors L es rand reverse d.seen msgs ∧
        d1.processedMessages + d1.errors = d.processedMessages + d.errors + msgs.length
      | .panic, .panic => True
      | _, _ => False := by
  intro msgs
  induction msgs with
  | nil =>
    intro d w hp he hd her _
    simp [mainLoop, countCodecErrors, hp, he, hd, her]
  | cons msg rest ih =>
    intro d w hp he hd her hs
    simp only [mainLoop, processMessage_eq, countCodecErrors, ← hs]
    cases hc : codecStep L es (rand d.seen) reverse msg with
    | panic => simp
    | ret r =>
      cases r with
      | failed =>
        have := ih (codecError d msg) (codecError w msg) (by simp [codecError, hp])
          (by simp [codecError, he]) (by simp [codecError, hd]) (by simp [codecError, her])
          (by simp [codecError, hs])
        simp only []
        revert this
        cases mainLoop L es rand save reverse true rest (codecError d msg) <;>
          cases mainLoop L es rand Store.alwaysOk reverse false rest (codecError w msg) <;>
          simp [codecError, List.length_cons]
        intro h1 h2 h3 h4 h5 h6 h7
        refine ⟨h1, h2, h3, h4, h5, ?_, ?_⟩ <;> omega
      | done m changed =>
        have := ih (saveStep save true (countChanged reverse changed d) msg m)
          (saveStep Store.alwaysOk false (countChanged reverse changed w) msg m)
          (by cases changed <;> cases reverse <;>
                simp [saveStep, countChanged, Store.alwaysOk, hp])
          (by cases changed <;> cases reverse <;>
                simp [saveStep, countChanged, Store.alwaysOk, he])
          (by cases changed <;> cases reverse <;>
                simp [saveStep, countChanged, Store.alwaysOk, hd])
          (by cases changed <;> cases reverse <;>
                simp [saveStep, countChanged, Store.alwaysOk, her])
          (by cases changed <;> cases reverse <;>
                simp [saveStep, countChanged, Store.alwaysOk, hs])
        simp only []
        revert this
        cases mainLoop L es rand save reverse true rest
            (saveStep save true (countChanged reverse changed d) msg m) <;>
          cases mainLoop L es rand Store.alwaysOk reverse false rest
            (saveStep Store.alwaysOk false (countChanged reverse changed w) msg m) <;>
          simp [List.length_cons]
        have e1 : (saveStep save true (countChanged reverse changed d) msg m).saveCalls
            = d.saveCalls := by
          cases changed <;> cases reverse <;> simp [saveStep, countChanged]
        have e2 : (saveStep save true (countChanged reverse changed d) msg m).errors
            = d.errors := by
          cases changed <;> cases reverse <;> simp [saveStep, countChanged]
        have e3 : (saveStep save true (countChanged reverse changed d) msg m).seen
            = d.seen + 1 := by
          cases changed <;> cases reverse <;> simp [saveStep, countChanged]
        have e4 : (saveStep save true (countChanged reverse changed d) msg m).processedMessages
            = d.processedMessages + 1 := by
          cases changed <;> cases reverse <;> simp [saveStep, countChanged]
        rw [e1, e2, e3, e4]
        intro h1 h2 h3 h4 h5 h6 h7
        refine ⟨h1, h2, h3, h4, h5, ?_, ?_⟩ <;> omega

/-- A dry run against a saving run.  For every list of records, mode, service, random source
and store, a run with `dryRun` set and the run without it over a store whose saves always succeed either both
panic or both end; when they end, the dry run has made no save call, reports the same
processed, encrypted, decrypted and error counts as the other run, its error count is the
number of failed codec steps, and its processed count is the total minus that number. -/
theorem dry_run_counts (L : Lib) (es : EncryptionService) (rand : Rand) (save : Store)
    (reverse : Bool) (msgs : List Message) :
    match runTool L es rand save reverse true msgs,
          runTool L es rand Store.alwaysOk reverse false msgs with
    | .ret d, .ret w =>
      d.saveCalls = [] ∧
      d.encryptedMessages = w.encryptedMessages ∧ d.decryptedMessages = w.decryptedMessages ∧
      d.processedMessages = w.processedMessages ∧ d.errors = w.errors ∧
      d.errors = countCodecErrors L es rand reverse 0 msgs ∧
      d.processedMessages = msgs.length - countCodecErrors L es rand reverse 0 msgs ∧
      countCodecErrors L es rand reverse 0 msgs ≤ msgs.length
    | .panic, .panic => True
    | _, _ => False := by
  have := dry_wet_loop L es rand save reverse msgs Run.init Run.init rfl rfl rfl rfl rfl
  unfold runTool
  revert this
  cases mainLoop L es rand save reverse true msgs Run.init <;>
    cases mainLoop L es rand Store.alwaysOk reverse false msgs Run.init <;>
    simp [Run.init]
  intro h1 h2 h3 h4 h5 h6 h7
  refine ⟨h5, h2, h3, h1, h4, h6, ?_, ?_⟩ <;> omega

/-- `DecryptContent` on the envelope `EncryptContent` builds from the bytes `b` and the
nonce: the value `b` unmarshals into. -/
theorem decrypt_sealed (L : Lib) (es : EncryptionService) (aead : AEAD)
    (hen : es.enabled = true) (ha : es.aead = some aead)
    (haead : L.OpenInvertsSeal) (hb64 : L.DecodeInvertsEncode)
    (nonce : Bytes) (hn : nonce.length = 12) (b : Bytes) (v : Content)
    (hv : L.UnmarshalAny b = some v) :
    es.DecryptContent L
        (.envelope (some { Data := L.EncodeToString (L.Seal aead nonce b []),
                           Nonce := L.EncodeToString nonce, Encrypted := true }))
      = .ret { val := v, err := none } := by
  rw [decrypt_resolved L es hen _ _ (resolve_typed L _) rfl]
  simp [hb64 _, ha, gcmOpen, AEAD.NonceSize, gcmStandardNonceSize, hn,
    haead aead nonce b [] (by simpa [AEAD.NonceSize, gcmStandardNonceSize] using hn), hv]

/-- The codec step in forward mode on an enabled service holding a cipher, when the nonce
read delivers twelve bytes: a record classified as encrypted is skipped, a record whose
content does not marshal fails, any other record is replaced by its envelope. -/
theorem codecStep_forward (L : Lib) (es : EncryptionService) (aead : AEAD)
    (hen : es.enabled = true) (ha : es.aead = some aead) (nonce : Bytes)
    (hn : nonce.length = 12) (msg : Message) :
    codecStep L es (some nonce) false msg =
      if isEncrypted L msg.Content then .ret (.done msg false)
      else
        match L.Marshal msg.Content with
        | none => .ret .failed
        | some b =>
          .ret (.done
            { Id := msg.Id,
              Content := .envelope (some { Data := L.EncodeToString (L.Seal aead nonce b []),
                                           Nonce := L.EncodeToString nonce,
                                           Encrypted := true }) } true) := by
  unfold codecStep
  by_cases h : isEncrypted L msg.Content = true
  · simp [h]
  · simp only [Bool.not_eq_true] at h
    simp only [Bool.false_eq_true, if_false, h, Bool.not_false, if_true]
    cases hm : L.Marshal msg.Content with
    | none => simp [EncryptionService.EncryptContent, hen, hm]
    | some b => simp [encrypt_eq L es aead hen ha nonce hn msg.Content b hm]

/-- The codec step in forward mode on an enabled service, for a record that is not
classified as encrypted and whose content does not marshal: it fails, whatever the nonce
read gives. -/
theorem codecStep_forward_unmarshalable (L : Lib) (es : EncryptionService)
    (hen : es.enabled = true) (draw : Option Bytes) (msg : Message)
    (h : isEncrypted L msg.Content = false) (hm : L.Marshal msg.Content = none) :
    codecStep L es draw false msg = .ret .failed := by
  simp [codecStep, h, EncryptionService.EncryptContent, hen, hm]

/-- The codec step in forward mode skips a record classified as encrypted. -/
theorem codecStep_forward_skip (L : Lib) (es : EncryptionService) (draw : Option Bytes)
    (msg : Message) (h : isEncrypted L msg.Content = true) :
    codecStep L es draw false msg = .ret (.done msg false) := by
  simp [codecStep, h]

/-- A forward run that saves into a store whose saves succeed, on an enabled service holding
a cipher and with a random source that delivers twelve bytes at every read: the run ends;
the store then holds, record by record, the fetched record when it was classified as encrypted
or its content does not marshal, and its envelope otherwise; the error counter has grown by
the number of stored records not classified as encrypted. -/
theorem forward_loop (L : Lib) (es : EncryptionService) (aead : AEAD)
    (hen : es.enabled = true) (ha : es.aead = some aead) (rand : Rand)
    (hrand : ∀ i, ∃ n, rand i = some n ∧ n.length = 12) :
    ∀ (msgs : List Message) (st : Run),
      ∃ st1 new, mainLoop L es rand Store.alwaysOk false false msgs st = .ret st1 ∧
        st1.stored = st.stored ++ new ∧
        List.Forall₂ (fun m m1 => m1.Id = m.Id ∧
          ((isEncrypted L m.Content = true ∧ m1 = m) ∨
           (isEncrypted L m.Content = false ∧ L.Marshal m.Content = none ∧ m1 = m) ∨
           (isEncrypted L m.Content = false ∧ ∃ b n, L.Marshal m.Content = some b ∧
              n.length = 12 ∧
              m1.Content = .envelope (some { Data := L.EncodeToString (L.Seal aead n b []),
                                             Nonce := L.EncodeToString n,
                                             Encrypted := true })))) msgs new ∧
        st1.errors = st.errors + new.countP (fun m => !isEncrypted L m.Content) ∧
        st1.processedMessages + st1.errors = st.processedMessages + st.errors + msgs.length ∧
        st1.encryptedMessages = st.encryptedMessages +
          msgs.countP (fun m => !isEncrypted L m.Content && (L.Marshal m.Content).isSome) := by
  intro msgs
  induction msgs with
  | nil => intro st; exact ⟨st, [], rfl, by simp, List.Forall₂.nil, by simp, by simp, by simp⟩
  | cons msg rest ih =>
    intro st
    obtain ⟨n, hr, hn⟩ := hrand st.seen
    simp only [mainLoop, processMessage_eq, hr, codecStep_forward L es aead hen ha n hn]
    by_cases h : isEncrypted L msg.Content = true
    · obtain ⟨st1, new, h1, h2, h3, h4, h5, h6⟩ :=
        ih (saveStep Store.alwaysOk false (countChanged false false st) msg msg)
      refine ⟨st1, msg :: new, by simpa [h] using h1, ?_, ?_, ?_, ?_, ?_⟩
      · simpa [saveStep, countChanged, Store.alwaysOk] using h2
      · exact List.Forall₂.cons ⟨rfl, Or.inl ⟨h, rfl⟩⟩ h3
      · simpa [saveStep, countChanged, Store.alwaysOk, h] using h4
      · simp [saveStep, countChanged, Store.alwaysOk] at h5 ⊢; omega
      · simpa [saveStep, countChanged, Store.alwaysOk, h] using h6
    · simp only [Bool.not_eq_true] at h
      cases hm : L.Marshal msg.Content with
      | none =>
        obtain ⟨st1, new, h1, h2, h3, h4, h5, h6⟩ := ih (codecError st msg)
        refine ⟨st1, msg :: new, by simpa [h, hm] using h1, ?_, ?_, ?_, ?_, ?_⟩
        · simpa [codecError] using h2
        · exact List.Forall₂.cons ⟨rfl, Or.inr (Or.inl ⟨h, hm, rfl⟩)⟩ h3
        · simp [codecError, h] at h4 ⊢; omega
        · simp [codecError] at h5 ⊢; omega
        · simpa [codecError, h, hm] using h6
      | some b =>
        obtain ⟨st1, new, h1, h2, h3, h4, h5, h6⟩ :=
          ih (saveStep Store.alwaysOk false (countChanged false true st) msg
            { Id := msg.Id,
              Content := .envelope (some { Data := L.EncodeToString (L.Seal aead n b []),
                                           Nonce := L.EncodeToString n, Encrypted := true }) })
        refine ⟨st1,
          { Id := msg.Id,
            Content := .envelope (some { Data := L.EncodeToString (L.Seal aead n b []),
                                         Nonce := L.EncodeToString n, Encrypted := true }) }
            :: new, by simpa [h, hm] using h1, ?_, ?_, ?_, ?_, ?_⟩
        · simpa [saveStep, countChanged, Store.alwaysOk] using h2
        · exact List.Forall₂.cons ⟨rfl, Or.inr (Or.inr ⟨h, b, n, hm, hn, rfl⟩)⟩ h3
        · simpa [saveStep, countChanged, Store.alwaysOk, isEncrypted] using h4
        · simp [saveStep, countChanged, Store.alwaysOk] at h5 ⊢; omega
        · simp [saveStep, countChanged, Store.alwaysOk, h, hm] at h6 ⊢; omega

/-- A forward run that saves into a store whose saves succeed, on an enabled service, over
records each of which is classified as encrypted or has a content that does not marshal: the
run ends, encrypts nothing, counts the first kind as processed and the second as errors, and
leaves the store as it was. -/
theorem forward_loop_settled (L : Lib) (es : EncryptionService) (hen : es.enabled = true)
    (rand : Rand) :
    ∀ (msgs : List Message) (st : Run),
      (∀ m ∈ msgs, isEncrypted L m.Content = true ∨ L.Marshal m.Content = none) →
      ∃ st1, mainLoop L es rand Store.alwaysOk false false msgs st = .ret st1 ∧
        st1.encryptedMessages = st.encryptedMessages ∧
        st1.errors = st.errors + msgs.countP (fun m => !isEncrypted L m.Content) ∧
        st1.processedMessages + st1.errors = st.processedMessages + st.errors + msgs.length ∧
        st1.stored = st.stored ++ msgs := by
  intro msgs
  induction msgs with
  | nil => intro st _; exact ⟨st, rfl, rfl, by simp, by simp, by simp⟩
  | cons msg rest ih =>
    intro st hall
    have hrest : ∀ m ∈ rest, isEncrypted L m.Content = true ∨ L.Marshal m.Content = none :=
      fun m hm => hall m (List.mem_cons_of_mem _ hm)
    simp only [mainLoop, processMessage_eq]
    by_cases h : isEncrypted L msg.Content = true
    · rw [codecStep_forward_skip L es _ msg h]
      obtain ⟨st1, h1, h2, h3, h4, h5⟩ :=
        ih (saveStep Store.alwaysOk false (countChanged false false st) msg msg) hrest
      refine ⟨st1, h1, ?_, ?_, ?_, ?_⟩
      · simpa [saveStep, countChanged, Store.alwaysOk] using h2
      · simpa [saveStep, countChanged, Store.alwaysOk, h] using h3
      · simp [saveStep, countChanged, Store.alwaysOk] at h4 ⊢; omega
      · simpa [saveStep, countChanged, Store.alwaysOk] using h5
    · simp only [Bool.not_eq_true] at h
      have hm : L.Marshal msg.Content = none := by
        rcases hall msg (List.mem_cons_self _ _) with h1 | h1
        · rw [h] at h1; cases h1
        · exact h1
      rw [codecStep_forward_unmarshalable L es hen _ msg h hm]
      obtain ⟨st1, h1, h2, h3, h4, h5⟩ := ih (codecError st msg) hrest
      refine ⟨st1, h1, ?_, ?_, ?_, ?_⟩
      · simpa [codecError] using h2
      · simp [codecError, h] at h3 ⊢; omega
      · simp [codecError] at h4 ⊢; omega
      · simpa [codecError] using h5

/-- What a forward run leaves in the store is classified as encrypted or does not marshal. -/
theorem settled_of_forward (L : Lib) (aead : AEAD) (msgs new : List Message)
    (h : List.Forall₂ (fun m m1 => m1.Id = m.Id ∧
          ((isEncrypted L m.Content = true ∧ m1 = m) ∨
           (isEncrypted L m.Content = false ∧ L.Marshal m.Content = none ∧ m1 = m) ∨
           (isEncrypted L m.Content = false ∧ ∃ b n, L.Marshal m.Content = some b ∧
              n.length = 12 ∧
              m1.Content = .envelope (some { Data := L.EncodeToString (L.Seal aead n b []),
                                             Nonce := L.EncodeToString n,
                                             Encrypted := true })))) msgs new) :
    ∀ m ∈ new, isEncrypted L m.Content = true ∨ L.Marshal m.Content = none := by
  induction h with
  | nil => intro m hm; cases hm
  | cons hab _ ih =>
    intro m hm
    rcases List.mem_cons.mp hm with rfl | hm
    · rcases hab.2 with ⟨h1, rfl⟩ | ⟨_, h2, rfl⟩ | ⟨_, b, n, _, _, h3⟩
      · exact Or.inl h1
      · exact Or.inr h2
      · left; rw [h3]; rfl
    · exact ih m hm

/-- C8: forward-pass idempotence.  On a service returned by `NewEncryptionService(true, key)`,
with a store whose saves succeed and a random source that delivers twelve bytes at every read
of the first run: the first forward run ends, and a second forward run (whatever its random
source) over what the store then holds ends too and reports `encrypted = 0`, with as many
errors as the first run; when the first run had no error, the second reports
`processed = total` and `errors = 0`. -/
theorem forward_twice (L : Lib) (key : Bytes) (es : EncryptionService)
    (hnew : NewEncryptionService L true key = (some es, none))
    (rand1 rand2 : Rand) (hrand : ∀ i, ∃ n, rand1 i = some n ∧ n.length = 12)
    (msgs : List Message) :
    ∃ st1 st2,
      runTool L es rand1 Store.alwaysOk false false msgs = .ret st1 ∧
      st1.stored.length = msgs.length ∧
      runTool L es rand2 Store.alwaysOk false false st1.stored = .ret st2 ∧
      st2.encryptedMessages = 0 ∧ st2.errors = st1.errors ∧
      st2.processedMessages + st2.errors = msgs.length ∧
      (st1.errors = 0 → st2.processedMessages = msgs.length ∧ st2.errors = 0) := by
  obtain ⟨hen, _, aead, ha⟩ := enabled_of_new L key es hnew
  obtain ⟨st1, new, h1, h2, h3, h4, _, _⟩ :=
    forward_loop L es aead hen ha rand1 hrand msgs Run.init
  have hstored : st1.stored = new := by simpa [Run.init] using h2
  have hlen : new.length = msgs.length := (List.Forall₂.length_eq h3).symm
  obtain ⟨st2, g1, g2, g3, g4, _⟩ :=
    forward_loop_settled L es hen rand2 new Run.init (settled_of_forward L aead msgs new h3)
  have e1 : st1.errors = new.countP (fun m => !isEncrypted L m.Content) := by
    simpa [Run.init] using h4
  have e2 : st2.errors = new.countP (fun m => !isEncrypted L m.Content) := by
    simpa [Run.init] using g3
  have e3 : st2.processedMessages + st2.errors = new.length := by
    simpa [Run.init] using g4
  refine ⟨st1, st2, h1, by rw [hstored, hlen], by rw [hstored]; exact g1,
    by simpa [Run.init] using g2, by rw [e1, e2], by rw [e3, hlen], ?_⟩
  intro h0
  have : st2.errors = 0 := by rw [e2, ← e1]; exact h0
  exact ⟨by omega, this⟩

set_option maxRecDepth 100000 in
/-- C8 on the reference library, on two plaintext records and one envelope record: the first
run reports encrypted = 2, processed = 3, errors = 0, the second encrypted = 0,
processed = 3, errors = 0. -/
theorem forward_twice_witness :
    NewEncryptionService refLib true testKey = (some testService, none) ∧
    (∀ i, ∃ n, testRand i = some n ∧ n.length = 12) ∧
    (∃ st1 st2,
      runTool refLib testService testRand Store.alwaysOk false false threeRecords = .ret st1 ∧
      st1.stored.length = threeRecords.length ∧
      runTool refLib testService testRand Store.alwaysOk false false st1.stored = .ret st2 ∧
      st2.encryptedMessages = 0 ∧ st2.errors = st1.errors ∧
      st2.processedMessages + st2.errors = threeRecords.length ∧
      (st1.errors = 0 → st2.processedMessages = threeRecords.length ∧ st2.errors = 0)) ∧
    report threeRecords
        (runTool refLib testService testRand Store.alwaysOk false false threeRecords)
      = some { total := 3, processed := 3, encrypted := 2, decrypted := 0, errors := 0 } ∧
    reportAfterForward refLib testService testRand testRand false threeRecords
      = some { total := 3, processed := 3, encrypted := 0, decrypted := 0, errors := 0 } :=
  have hnew : NewEncryptionService refLib true testKey = (some testService, none) := by decide
  have hrand : ∀ i, ∃ n, testRand i = some n ∧ n.length = 12 :=
    fun _ => ⟨testNonce, rfl, by decide⟩
  ⟨hnew, hrand,
    forward_twice refLib testKey testService hnew testRand testRand hrand threeRecords,
    by decide!, by decide!⟩

/-- `DecryptContent` on the envelope `EncryptContent` builds from the bytes `b` and the
nonce, whatever `b` is: the value `b` unmarshals into, or `b` as a string. -/
theorem decrypt_sealed_eq (L : Lib) (es : EncryptionService) (aead : AEAD)
    (hen : es.enabled = true) (ha : es.aead = some aead)
    (haead : L.OpenInvertsSeal) (hb64 : L.DecodeInvertsEncode)
    (nonce : Bytes) (hn : nonce.length = 12) (b : Bytes) :
    es.DecryptContent L
        (.envelope (some { Data := L.EncodeToString (L.Seal aead nonce b []),
                           Nonce := L.EncodeToString nonce, Encrypted := true }))
      = .ret { val := (match L.UnmarshalAny b with
                       | some v => v
                       | none => .str b),
               err := none } := by
  rw [decrypt_resolved L es hen _ _ (resolve_typed L _) rfl]
  simp only [hb64 _, ha, gcmOpen, AEAD.NonceSize, gcmStandardNonceSize, hn, if_true,
    haead aead nonce b [] (by simpa [AEAD.NonceSize, gcmStandardNonceSize] using hn)]
  cases L.UnmarshalAny b <;> rfl

/-- A reverse run that saves into a store whose saves succeed, over the envelopes a forward
run built from records whose contents marshal: the run ends, decrypts every record without
error, and leaves in the store, record by record, a content that has the serialisation of the
original when the original is stable under JSON. -/
theorem reverse_loop_sealed (L : Lib) (es : EncryptionService) (aead : AEAD)
    (hen : es.enabled = true) (ha : es.aead = some aead)
    (haead : L.OpenInvertsSeal) (hb64 : L.DecodeInvertsEncode) (rand : Rand)
    (msgs new : List Message)
    (h : List.Forall₂ (fun m m1 => m1.Id = m.Id ∧
          ∃ b n, L.Marshal m.Content = some b ∧ n.length = 12 ∧
            m1.Content = .envelope (some { Data := L.EncodeToString (L.Seal aead n b []),
                                           Nonce := L.EncodeToString n,
                                           Encrypted := true })) msgs new) :
    ∀ st : Run,
      ∃ st2 out, mainLoop L es rand Store.alwaysOk true false new st = .ret st2 ∧
        st2.stored = st.stored ++ out ∧
        List.Forall₂ (fun m o => o.Id = m.Id ∧
            (L.JsonStable m.Content → L.Marshal o.Content = L.Marshal m.Content))
          msgs out ∧
        st2.decryptedMessages = st.decryptedMessages + msgs.length ∧
        st2.errors = st.errors ∧
        st2.processedMessages = st.processedMessages + msgs.length := by
  induction h with
  | nil => intro st; exact ⟨st, [], rfl, by simp, List.Forall₂.nil, by simp, rfl, by simp⟩
  | @cons m m1 rest rest1 hab _ ih =>
    intro st
    obtain ⟨hid, b, n, hm, hn, hc⟩ := hab
    have hdec := decrypt_sealed_eq L es aead hen ha haead hb64 n hn b
    have hstep : codecStep L es (rand st.seen) true m1
        = .ret (.done { Id := m1.Id,
                        Content := (match L.UnmarshalAny b with
                                    | some v => v
                                    | none => .str b) } true) := by
      simp [codecStep, hc, isEncrypted, hdec]
    obtain ⟨st2, out, h1, h2, h3, h4, h5, h6⟩ :=
      ih (saveStep Store.alwaysOk false (countChanged true true st) m1
            { Id := m1.Id,
              Content := (match L.UnmarshalAny b with
                          | some v => v
                          | none => .str b) })
    refine ⟨st2, { Id := m1.Id,
                   Content := (match L.UnmarshalAny b with
                               | some v => v
                               | none => .str b) } :: out, ?_, ?_, ?_, ?_, ?_, ?_⟩
    · simp only [mainLoop, processMessage_eq, hstep]
      exact h1
    · simpa [saveStep, countChanged, Store.alwaysOk] using h2
    · refine List.Forall₂.cons ⟨hid, fun hstable => ?_⟩ h3
      obtain ⟨v, hv, hvm⟩ := hstable b hm
      simp only [hv]
      rw [hvm, hm]
    · simp [saveStep, countChanged, Store.alwaysOk] at h4 ⊢; omega
    · simpa [saveStep, countChanged, Store.alwaysOk] using h5
    · simp [saveStep, countChanged, Store.alwaysOk] at h6 ⊢; omega

/-- What a forward run leaves in the store for records that are not classified as encrypted
and marshal: their envelopes. -/
theorem sealed_of_forward (L : Lib) (aead : AEAD) (msgs new : List Message)
    (h : List.Forall₂ (fun m m1 => m1.Id = m.Id ∧
          ((isEncrypted L m.Content = true ∧ m1 = m) ∨
           (isEncrypted L m.Content = false ∧ L.Marshal m.Content = none ∧ m1 = m) ∨
           (isEncrypted L m.Content = false ∧ ∃ b n, L.Marshal m.Content = some b ∧
              n.length = 12 ∧
              m1.Content = .envelope (some { Data := L.EncodeToString (L.Seal aead n b []),
                                             Nonce := L.EncodeToString n,
                                             Encrypted := true })))) msgs new)
    (hmsgs : ∀ m ∈ msgs, isEncrypted L m.Content = false ∧ L.Marshal m.Content ≠ none) :
    List.Forall₂ (fun m m1 => m1.Id = m.Id ∧
          ∃ b n, L.Marshal m.Content = some b ∧ n.length = 12 ∧
            m1.Content = .envelope (some { Data := L.EncodeToString (L.Seal aead n b []),
                                           Nonce := L.EncodeToString n,
                                           Encrypted := true })) msgs new := by
  induction h with
  | nil => exact List.Forall₂.nil
  | @cons m m1 rest rest1 hab _ ih =>
    obtain ⟨hne, hmar⟩ := hmsgs m (List.mem_cons_self _ _)
    refine List.Forall₂.cons ?_ (ih fun x hx => hmsgs x (List.mem_cons_of_mem _ hx))
    rcases hab with ⟨hid, ⟨h1, _⟩ | ⟨_, h2, _⟩ | ⟨_, b, n, hb, hn, hc⟩⟩
    · rw [hne] at h1; cases h1
    · exact absurd h2 hmar
    · exact ⟨hid, b, n, hb, hn, hc⟩

/-- The envelopes a forward run builds are classified as encrypted. -/
theorem encrypted_of_sealed (L : Lib) (aead : AEAD) (msgs new : List Message)
    (h : List.Forall₂ (fun m m1 => m1.Id = m.Id ∧
          ∃ b n, L.Marshal m.Content = some b ∧ n.length = 12 ∧
            m1.Content = .envelope (some { Data := L.EncodeToString (L.Seal aead n b []),
                                           Nonce := L.EncodeToString n,
                                           Encrypted := true })) msgs new) :
    ∀ m1 ∈ new, isEncrypted L m1.Content = true := by
  induction h with
  | nil => intro m hm; cases hm
  | cons hab _ ih =>
    intro x hx
    rcases List.mem_cons.mp hx with rfl | hx
    · obtain ⟨_, b, n, _, _, hc⟩ := hab
      rw [hc]; rfl
    · exact ih x hx

/-- C9, as amended: forward then reverse.  On a service returned by
`NewEncryptionService(true, key)`, with a store whose saves succeed and a random source that
delivers twelve bytes at every read, for records that are not classified as encrypted and
whose contents marshal: the forward run ends and encrypts every record; the reverse run over
what the store then holds ends, reports `decrypted = total`, `processed = total` and
`errors = 0`, and leaves in the store, record by record, a content whose serialisation is the
serialisation of the original whenever unmarshal-then-marshal of the marshalled bytes of the
original is stable.  The library facts assumed: `Open` inverts `Seal` and base64 decoding
inverts encoding. -/
theorem forward_then_reverse (L : Lib) (key : Bytes) (es : EncryptionService)
    (hnew : NewEncryptionService L true key = (some es, none))
    (haead : L.OpenInvertsSeal) (hb64 : L.DecodeInvertsEncode)
    (rand1 rand2 : Rand) (hrand : ∀ i, ∃ n, rand1 i = some n ∧ n.length = 12)
    (msgs : List Message)
    (hmsgs : ∀ m ∈ msgs, isEncrypted L m.Content = false ∧ L.Marshal m.Content ≠ none) :
    ∃ st1 st2,
      runTool L es rand1 Store.alwaysOk false false msgs = .ret st1 ∧
      st1.encryptedMessages = msgs.length ∧ st1.errors = 0 ∧
      runTool L es rand2 Store.alwaysOk true false st1.stored = .ret st2 ∧
      st2.decryptedMessages = msgs.length ∧ st2.processedMessages = msgs.length ∧
      st2.errors = 0 ∧
      List.Forall₂ (fun m o => o.Id = m.Id ∧
          (L.JsonStable m.Content → L.Marshal o.Content = L.Marshal m.Content))
        msgs st2.stored := by
  obtain ⟨hen, _, aead, ha⟩ := enabled_of_new L key es hnew
  obtain ⟨st1, new, h1, h2, h3, h4, h5, h6⟩ :=
    forward_loop L es aead hen ha rand1 hrand msgs Run.init
  have hstored : st1.stored = new := by simpa [Run.init] using h2
  have hsealed := sealed_of_forward L aead msgs new h3 hmsgs
  obtain ⟨st2, out, g1, g2, g3, g4, g5, g6⟩ :=
    reverse_loop_sealed L es aead hen ha haead hb64 rand2 msgs new hsealed Run.init
  have hall : msgs.countP (fun m => !isEncrypted L m.Content && (L.Marshal m.Content).isSome)
      = msgs.length := by
    rw [List.countP_eq_length]
    intro m hm
    obtain ⟨a, b⟩ := hmsgs m hm
    simp [a, Option.isSome_iff_ne_none, b]
  have hnone : new.countP (fun m => !isEncrypted L m.Content) = 0 := by
    rw [List.countP_eq_zero]
    intro m1 hm1
    simp [encrypted_of_sealed L aead msgs new hsealed m1 hm1]
  refine ⟨st1, st2, h1, by simpa [Run.init, hall] using h6, by simpa [Run.init, hnone] using h4,
    by rw [hstored]; exact g1, by simpa [Run.init] using g4, by simpa [Run.init] using g6,
    by simpa [Run.init] using g5, ?_⟩
  have : st2.stored = out := by simpa [Run.init] using g2
  rw [this]
  exact g3

/-- On the reference library a string content is stable under JSON. -/
theorem refLib_jsonStable_str (s : Bytes) : refLib.JsonStable (.str s) := by
  intro b hb
  have hb1 : b = jsonQuote s := by
    have h : jsonMarshal (.str s) = some b := hb
    simpa [jsonMarshal] using h.symm
  subst hb1
  refine ⟨.str s, ?_, rfl⟩
  show jsonUnmarshalAny (jsonQuote s) = some (.str s)
  have h := parseValue_jsonQuote (2 * (jsonQuote s).length + 1) s []
  rw [List.append_nil] at h
  simp [jsonUnmarshalAny, parseJSON, h, skipSpace, toAny]

set_option maxRecDepth 100000 in
/-- C9, as amended, on the reference library, on two plaintext records, both stable under
JSON: the forward run encrypts both, the reverse run reports decrypted = 2, processed = 2,
errors = 0. -/
theorem forward_then_reverse_witness :
    NewEncryptionService refLib true testKey = (some testService, none) ∧
    refLib.OpenInvertsSeal ∧ refLib.DecodeInvertsEncode ∧
    (∀ i, ∃ n, testRand i = some n ∧ n.length = 12) ∧
    (∀ m ∈ twoRecords, isEncrypted refLib m.Content = false ∧
      refLib.Marshal m.Content ≠ none) ∧
    (∀ m ∈ twoRecords, refLib.JsonStable m.Content) ∧
    (∃ st1 st2,
      runTool refLib testService testRand Store.alwaysOk false false twoRecords = .ret st1 ∧
      st1.encryptedMessages = twoRecords.length ∧ st1.errors = 0 ∧
      runTool refLib testService testRand Store.alwaysOk true false st1.stored = .ret st2 ∧
      st2.decryptedMessages = twoRecords.length ∧
      st2.processedMessages = twoRecords.length ∧ st2.errors = 0 ∧
      List.Forall₂
        (fun m o => o.Id = m.Id ∧
          (refLib.JsonStable m.Content → refLib.Marshal o.Content = refLib.Marshal m.Content))
        twoRecords st2.stored) ∧
    reportAfterForward refLib testService testRand testRand true twoRecords
      = some { total := 2, processed := 2, encrypted := 0, decrypted := 2, errors := 0 } ∧
    serialisedAfterForwardReverse refLib testService testRand testRand twoRecords
      = some (serialisations refLib twoRecords) :=
  have hnew : NewEncryptionService refLib true testKey = (some testService, none) := by decide
  have hrand : ∀ i, ∃ n, testRand i = some n ∧ n.length = 12 :=
    fun _ => ⟨testNonce, rfl, by decide⟩
  have hmsgs : ∀ m ∈ twoRecords, isEncrypted refLib m.Content = false ∧
      refLib.Marshal m.Content ≠ none := by
    intro m hm
    simp only [twoRecords, List.mem_cons, List.mem_singleton, List.not_mem_nil, or_false] at hm
    rcases hm with rfl | rfl
    · exact ⟨by decide, by decide⟩
    · exact ⟨by decide, by decide⟩
  have hstable : ∀ m ∈ twoRecords, refLib.JsonStable m.Content := by
    intro m hm
    simp only [twoRecords, List.mem_cons, List.mem_singleton, List.not_mem_nil, or_false] at hm
    rcases hm with rfl | rfl
    · exact refLib_jsonStable_str _
    · exact refLib_jsonStable_str _
  ⟨hnew, refLib_openInvertsSeal, refLib_decodeInvertsEncode, hrand, hmsgs, hstable,
    forward_then_reverse refLib testKey testService hnew refLib_openInvertsSeal
      refLib_decodeInvertsEncode testRand testRand hrand twoRecords hmsgs,
    by decide!, by decide!⟩

/-! ## The classifier and the shape of envelopes -/

/-- C17: the decision table of `isEncrypted`.  It returns true exactly when the content is a
typed envelope (a `*EncryptedContent` held in the interface, whatever it points to) or a
string that unmarshals into an envelope whose flag is true; it returns false on nil, on a
string that does not unmarshal or unmarshals with the flag false, and on every other shape: a
boolean, a number, a sequence, a map (also a map with the keys of an envelope) and a value
that does not marshal. -/
theorem isEncrypted_table (L : Lib) :
    (∀ c : Content, isEncrypted L c = true ↔
      ((∃ p, c = .envelope p) ∨
       (∃ s ec, c = .str s ∧ L.UnmarshalEncryptedContent s = some ec ∧ ec.Encrypted = true))) ∧
    isEncrypted L .nil = false ∧
    (∀ p, isEncrypted L (.envelope p) = true) ∧
    (∀ s, L.UnmarshalEncryptedContent s = none → isEncrypted L (.str s) = false) ∧
    (∀ s ec, L.UnmarshalEncryptedContent s = some ec → isEncrypted L (.str s) = ec.Encrypted) ∧
    (∀ b, isEncrypted L (.bool b) = false) ∧ (∀ n, isEncrypted L (.num n) = false) ∧
    (∀ xs, isEncrypted L (.arr xs) = false) ∧ (∀ kvs, isEncrypted L (.map kvs) = false) ∧
    isEncrypted L .chan = false ∧ isEncrypted L envelopeLikeMap = false := by
  refine ⟨?_, rfl, fun _ => rfl, ?_, ?_, fun _ => rfl, fun _ => rfl, fun _ => rfl,
    fun _ => rfl, rfl, rfl⟩
  · intro c
    cases c with
    | envelope p => simp [isEncrypted]
    | str s =>
      cases hu : L.UnmarshalEncryptedContent s with
      | none => simp [isEncrypted, hu]
      | some ec => simp [isEncrypted, hu]
    | _ => simp [isEncrypted]
  · intro s hu
    simp [isEncrypted, hu]
  · intro s ec hu
    simp [isEncrypted, hu]

set_option maxRecDepth 100000 in
/-- C14 as stated fails on typed envelopes.  A typed envelope with the flag false, and a nil
`*EncryptedContent`, are classified as encrypted on every library (the branch of lines
172-174 returns true for every typed pointer, as the decision table describes), so it is not
the case that every classified content resolves to an envelope whose flag is true.
`DecryptContent` on an enabled service returns the first unchanged without error, and the
string path of `isEncrypted` returns the flag of the structure the string unmarshals into.
In reverse mode the record holding the first is counted as decrypted and saved as it was. -/
theorem isEncrypted_discriminator_counterexample :
    unflaggedEnvelope.Encrypted = false ∧
    (∀ L : Lib, ¬ ∀ c : Content, isEncrypted L c = true →
      ∃ ec, resolveEnvelope L c = some (some ec) ∧ ec.Encrypted = true) ∧
    (∀ L : Lib, isEncrypted L (.envelope (some unflaggedEnvelope)) = true) ∧
    (∀ L : Lib, isEncrypted L (.envelope none) = true) ∧
    (∀ (L : Lib) (key : Bytes) (aead : Option AEAD),
      EncryptionService.DecryptContent L { enabled := true, key := key, aead := aead }
        (.envelope (some unflaggedEnvelope))
        = .ret { val := .envelope (some unflaggedEnvelope), err := none }) ∧
    (∀ (L : Lib) (s : Bytes) (ec : EncryptedContent),
      L.UnmarshalEncryptedContent s = some ec → isEncrypted L (.str s) = ec.Encrypted) ∧
    report [{ Id := 1, Content := .envelope (some unflaggedEnvelope) }]
        (runTool refLib testService testRand Store.alwaysOk true false
          [{ Id := 1, Content := .envelope (some unflaggedEnvelope) }])
      = some { total := 1, processed := 1, encrypted := 0, decrypted := 1, errors := 0 } ∧
    reportAfterReverse refLib testService testRand testRand
        [{ Id := 1, Content := .envelope (some unflaggedEnvelope) }]
      = some { total := 1, processed := 1, encrypted := 0, decrypted := 1, errors := 0 } := by
  refine ⟨rfl, ?_, fun _ => rfl, fun _ => rfl, fun _ _ _ => rfl, ?_, by decide!, by decide!⟩
  · intro L h
    obtain ⟨ec, hres, hflag⟩ := h (.envelope (some unflaggedEnvelope)) rfl
    have e : some (some unflaggedEnvelope) = some (some ec) := hres
    injection e with e
    injection e with e
    subst e
    cases hflag
  · intro L s ec hu
    simp [isEncrypted, hu]

/-- C15: the deserialisation fallback.  On a service returned by
`NewEncryptionService(true, key)`, for a content that is a typed envelope, or a string that
unmarshals into one, with the flag set, whose data and nonce decode and whose ciphertext
`Open` accepts: `DecryptContent` returns a nil error and the value the opened bytes unmarshal
into or, when they do not unmarshal, the opened bytes as a string. -/
theorem DecryptContent_fallback (L : Lib) (key : Bytes) (es : EncryptionService)
    (hnew : NewEncryptionService L true key = (some es, none))
    (c : Content) (ec : EncryptedContent)
    (hc : c = .envelope (some ec) ∨ ∃ s, c = .str s ∧ L.UnmarshalEncryptedContent s = some ec)
    (hflag : ec.Encrypted = true)
    (data nonce opened : Bytes) (aead : AEAD)
    (hd : L.DecodeString ec.Data = some data) (hn : L.DecodeString ec.Nonce = some nonce)
    (ha : es.aead = some aead)
    (hopen : gcmOpen L aead nonce data [] = .ret (some opened)) :
    es.DecryptContent L c =
      .ret { val := (match L.UnmarshalAny opened with
                     | some v => v
                     | none => .str opened),
             err := none } := by
  obtain ⟨hen, _, _, _⟩ := enabled_of_new L key es hnew
  have hres : resolveEnvelope L c = some (some ec) := by
    rcases hc with h | ⟨s, h, hu⟩
    · subst h; rfl
    · subst h; exact resolve_str L s ec hu hflag
  rw [decrypt_resolved L es hen c ec hres hflag]
  simp only [hd, hn, ha, hopen]
  cases L.UnmarshalAny opened <;> rfl

set_option maxRecDepth 100000 in
/-- C15 on the reference library: the envelope of the string `Hello, World!` decrypts to that
string, and an envelope whose plaintext is the bytes `plain text`, which are not JSON,
decrypts to those bytes as a string. -/
theorem DecryptContent_fallback_witness :
    NewEncryptionService refLib true testKey = (some testService, none) ∧
    rawEnvelope.Encrypted = true ∧
    (∃ data nonce aead, refLib.DecodeString rawEnvelope.Data = some data ∧
      refLib.DecodeString rawEnvelope.Nonce = some nonce ∧ testService.aead = some aead ∧
      gcmOpen refLib aead nonce data [] = .ret (some (lit "plain text"))) ∧
    refLib.UnmarshalAny (lit "plain text") = none ∧
    testService.DecryptContent refLib (.envelope (some rawEnvelope))
      = .ret { val := (match refLib.UnmarshalAny (lit "plain text") with
                       | some v => v
                       | none => .str (lit "plain text")),
               err := none } ∧
    testService.DecryptContent refLib (.envelope (some rawEnvelope))
      = .ret { val := .str (lit "plain text"), err := none } ∧
    testService.DecryptContent refLib (.envelope (some helloEnvelope))
      = .ret { val := .str (lit "Hello, World!"), err := none } :=
  have hnew : NewEncryptionService refLib true testKey = (some testService, none) := by decide
  ⟨hnew, rfl, ⟨_, _, _, rfl, rfl, rfl, by rfl⟩, by rfl,
    DecryptContent_fallback refLib testKey testService hnew _ rawEnvelope (Or.inl rfl) rfl
      _ _ (lit "plain text") _ rfl rfl rfl (by rfl),
    by rfl, by rfl⟩

/-- On the reference library the encoding of the empty sequence is empty. -/
theorem refLib_encodesEmpty : refLib.EncodesEmpty := rfl

/-- On the reference library `Seal` appends sixteen bytes. -/
theorem refLib_sealAppendsTag : refLib.SealAppendsTag := by
  intro a nonce text ad
  show (standInSeal a nonce text ad).length = text.length + 16
  simp [standInSeal, applyStream_length, standInTag_length]

/-- On the reference library an envelope reads back from its serialisation. -/
theorem refLib_envelopesReadBack : refLib.EnvelopesReadBack := by
  intro d n
  exact ⟨_, rfl, refLib_unmarshal_marshal _⟩

/-- When decoding inverts encoding and the empty sequence encodes to the empty string, a
sequence that is not empty does not encode to the empty string. -/
theorem encode_ne_nil (L : Lib) (hb64 : L.DecodeInvertsEncode) (hempty : L.EncodesEmpty)
    (b : Bytes) (hb : b ≠ []) : L.EncodeToString b ≠ [] := by
  intro h
  have h1 := hb64 b
  have h2 := hb64 []
  rw [h] at h1
  rw [hempty] at h2
  rw [h1] at h2
  exact hb (Option.some.inj h2)

/-- When decoding inverts encoding, encoding is injective. -/
theorem encode_injective (L : Lib) (hb64 : L.DecodeInvertsEncode) (a b : Bytes)
    (h : L.EncodeToString a = L.EncodeToString b) : a = b := by
  have h1 := hb64 a
  rw [h, hb64 b] at h1
  exact (Option.some.inj h1).symm

/-- C12: the shape of the envelope.  On a service returned by
`NewEncryptionService(true, key)`, for a content that marshals to the bytes `b` and a drawn
nonce of twelve bytes, `EncryptContent` returns without error a typed envelope with the flag
set, whose nonce field is the base64 encoding of the nonce, of `NonceSize` bytes, and whose
data field is the base64 encoding of `Seal` of `b` under that nonce with empty additional
data; both fields are non-empty and decode to the bytes they encode.  The library facts
assumed: base64 decoding inverts encoding, the empty sequence encodes to the empty string,
and `Seal` appends a sixteen-byte tag. -/
theorem EncryptContent_shape (L : Lib) (key : Bytes) (es : EncryptionService)
    (hnew : NewEncryptionService L true key = (some es, none))
    (hb64 : L.DecodeInvertsEncode) (hempty : L.EncodesEmpty) (htag : L.SealAppendsTag)
    (c : Content) (hm : L.Marshal c ≠ none) (nonce : Bytes) (hn : nonce.length = 12) :
    ∃ aead b ec, es.aead = some aead ∧ L.Marshal c = some b ∧
      es.EncryptContent L (some nonce) c = .ret { val := .envelope (some ec), err := none } ∧
      ec.Encrypted = true ∧
      ec.Nonce = L.EncodeToString nonce ∧ nonce.length = aead.NonceSize ∧
      ec.Data = L.EncodeToString (L.Seal aead nonce b []) ∧
      ec.Data ≠ [] ∧ ec.Nonce ≠ [] ∧
      L.DecodeString ec.Data = some (L.Seal aead nonce b []) ∧
      L.DecodeString ec.Nonce = some nonce := by
  obtain ⟨hen, _, aead, ha⟩ := enabled_of_new L key es hnew
  obtain ⟨b, hb⟩ := Option.ne_none_iff_exists'.mp hm
  have hseal : L.Seal aead nonce b [] ≠ [] := by
    intro h
    have := htag aead nonce b []
    rw [h] at this
    simp at this
  have hnonce : nonce ≠ [] := by
    intro h
    rw [h] at hn
    simp at hn
  exact ⟨aead, b, _, ha, hb, encrypt_eq L es aead hen ha nonce hn c b hb, rfl, rfl, hn, rfl,
    encode_ne_nil L hb64 hempty _ hseal, encode_ne_nil L hb64 hempty _ hnonce, hb64 _, hb64 _⟩

/-- C12 on the reference library: the envelope of the string `Test message` of the tests. -/
theorem EncryptContent_shape_witness :
    NewEncryptionService refLib true testKey = (some testService, none) ∧
    refLib.DecodeInvertsEncode ∧ refLib.EncodesEmpty ∧ refLib.SealAppendsTag ∧
    refLib.Marshal (.str (lit "Test message")) ≠ none ∧ testNonce.length = 12 ∧
    ∃ aead b ec, testService.aead = some aead ∧
      refLib.Marshal (.str (lit "Test message")) = some b ∧
      testService.EncryptContent refLib (some testNonce) (.str (lit "Test message"))
        = .ret { val := .envelope (some ec), err := none } ∧
      ec.Encrypted = true ∧
      ec.Nonce = refLib.EncodeToString testNonce ∧ testNonce.length = aead.NonceSize ∧
      ec.Data = refLib.EncodeToString (refLib.Seal aead testNonce b []) ∧
      ec.Data ≠ [] ∧ ec.Nonce ≠ [] ∧
      refLib.DecodeString ec.Data = some (refLib.Seal aead testNonce b []) ∧
      refLib.DecodeString ec.Nonce = some testNonce :=
  have hnew : NewEncryptionService refLib true testKey = (some testService, none) := by decide
  have hm : refLib.Marshal (.str (lit "Test message")) ≠ none := by decide
  ⟨hnew, refLib_decodeInvertsEncode, refLib_encodesEmpty, refLib_sealAppendsTag, hm, by decide,
    EncryptContent_shape refLib testKey testService hnew refLib_decodeInvertsEncode
      refLib_encodesEmpty refLib_sealAppendsTag _ hm testNonce (by decide)⟩

/-- C16: two draws.  On a service returned by `NewEncryptionService(true, key)`, for a
content that marshals and two different drawn nonces of twelve bytes, the two envelopes
`EncryptContent` returns have different nonce fields, are different, and have different
serialisations.  The library facts assumed: base64 decoding inverts encoding, and an envelope
with base64 fields reads back from its serialisation. -/
theorem EncryptContent_distinct_nonces (L : Lib) (key : Bytes) (es : EncryptionService)
    (hnew : NewEncryptionService L true key = (some es, none))
    (hb64 : L.DecodeInvertsEncode) (hread : L.EnvelopesReadBack)
    (c : Content) (hm : L.Marshal c ≠ none) (n1 n2 : Bytes)
    (h1 : n1.length = 12) (h2 : n2.length = 12) (hne : n1 ≠ n2) :
    ∃ e1 e2 b1 b2,
      es.EncryptContent L (some n1) c = .ret { val := .envelope (some e1), err := none } ∧
      es.EncryptContent L (some n2) c = .ret { val := .envelope (some e2), err := none } ∧
      e1.Nonce ≠ e2.Nonce ∧ e1 ≠ e2 ∧
      Content.envelope (some e1) ≠ Content.envelope (some e2) ∧
      L.Marshal (.envelope (some e1)) = some b1 ∧ L.Marshal (.envelope (some e2)) = some b2 ∧
      b1 ≠ b2 := by
  obtain ⟨hen, _, aead, ha⟩ := enabled_of_new L key es hnew
  obtain ⟨b, hb⟩ := Option.ne_none_iff_exists'.mp hm
  obtain ⟨b1, hm1, hu1⟩ := hread (L.Seal aead n1 b []) n1
  obtain ⟨b2, hm2, hu2⟩ := hread (L.Seal aead n2 b []) n2
  have hnonce : L.EncodeToString n1 ≠ L.EncodeToString n2 :=
    fun h => hne (encode_injective L hb64 n1 n2 h)
  refine ⟨_, _, b1, b2, encrypt_eq L es aead hen ha n1 h1 c b hb,
    encrypt_eq L es aead hen ha n2 h2 c b hb, hnonce, ?_, ?_, hm1, hm2, ?_⟩
  · intro h
    exact hnonce (congrArg EncryptedContent.Nonce h)
  · intro h
    injection h with h
    injection h with h
    exact hnonce (congrArg EncryptedContent.Nonce h)
  · intro h
    rw [h, hu2] at hu1
    exact hnonce (congrArg EncryptedContent.Nonce (Option.some.inj hu1)).symm

/-- C16 on the reference library: the string `Hello, World!` under `testNonce` and under
`otherNonce`. -/
theorem EncryptContent_distinct_nonces_witness :
    NewEncryptionService refLib true testKey = (some testService, none) ∧
    refLib.DecodeInvertsEncode ∧ refLib.EnvelopesReadBack ∧
    refLib.Marshal (.str (lit "Hello, World!")) ≠ none ∧
    testNonce.length = 12 ∧ otherNonce.length = 12 ∧ testNonce ≠ otherNonce ∧
    ∃ e1 e2 b1 b2,
      testService.EncryptContent refLib (some testNonce) (.str (lit "Hello, World!"))
        = .ret { val := .envelope (some e1), err := none } ∧
      testService.EncryptContent refLib (some otherNonce) (.str (lit "Hello, World!"))
        = .ret { val := .envelope (some e2), err := none } ∧
      e1.Nonce ≠ e2.Nonce ∧ e1 ≠ e2 ∧
      Content.envelope (some e1) ≠ Content.envelope (some e2) ∧
      refLib.Marshal (.envelope (some e1)) = some b1 ∧
      refLib.Marshal (.envelope (some e2)) = some b2 ∧ b1 ≠ b2 :=
  have hnew : NewEncryptionService refLib true testKey = (some testService, none) := by decide
  have hm : refLib.Marshal (.str (lit "Hello, World!")) ≠ none := by decide
  ⟨hnew, refLib_decodeInvertsEncode, refLib_envelopesReadBack, hm, by decide, by decide,
    by decide,
    EncryptContent_distinct_nonces refLib testKey testService hnew refLib_decodeInvertsEncode
      refLib_envelopesReadBack _ hm testNonce otherNonce (by decide) (by decide) (by decide)⟩

/-! ## Accounting and save trace of the loop -/

/-- One pass of the loop body, by the outcome of the codec step: a panic of the codec step is
a panic of the run; a failed codec step adds one error; otherwise the record is counted as
processed, unless the run is not dry and the save fails, which adds one error.  In every case
that returns, exactly one of the two counters grows, by one, and a save call is made exactly
when the codec step did not fail and the run is not dry. -/
theorem processMessage_accounting (L : Lib) (es : EncryptionService) (rand : Rand)
    (save : Store) (reverse dryRun : Bool) (st : Run) (msg : Message) :
    match codecStep L es (rand st.seen) reverse msg with
    | .panic => processMessage L es rand save reverse dryRun st msg = .panic
    | .ret .failed =>
      ∃ st1, processMessage L es rand save reverse dryRun st msg = .ret st1 ∧
        st1.errors = st.errors + 1 ∧ st1.processedMessages = st.processedMessages ∧
        st1.seen = st.seen + 1 ∧ st1.saveCalls = st.saveCalls
    | .ret (.done m _) =>
      ∃ st1, processMessage L es rand save reverse dryRun st msg = .ret st1 ∧
        st1.seen = st.seen + 1 ∧
        if dryRun then
          st1.processedMessages = st.processedMessages + 1 ∧ st1.errors = st.errors ∧
          st1.saveCalls = st.saveCalls
        else
          st1.saveCalls = st.saveCalls ++ [m] ∧
          match save st.saveCalls m with
          | some _ => st1.errors = st.errors + 1 ∧ st1.processedMessages = st.processedMessages
          | none => st1.processedMessages = st.processedMessages + 1 ∧ st1.errors = st.errors := by
  rw [processMessage_eq]
  cases hc : codecStep L es (rand st.seen) reverse msg with
  | panic => rfl
  | ret r =>
    cases r with
    | failed => exact ⟨_, rfl, rfl, rfl, rfl, rfl⟩
    | done m changed =>
      refine ⟨_, rfl, ?_, ?_⟩
      · cases dryRun <;> cases changed <;> cases reverse <;>
          simp [saveStep, countChanged] <;> split <;> rfl
      · cases dryRun
        · have hcalls : (countChanged reverse changed st).saveCalls = st.saveCalls := by
            cases changed <;> cases reverse <;> rfl
          have herr : (countChanged reverse changed st).errors = st.errors := by
            cases changed <;> cases reverse <;> rfl
          have hproc : (countChanged reverse changed st).processedMessages
              = st.processedMessages := by
            cases changed <;> cases reverse <;> rfl
          simp only [Bool.false_eq_true, if_false, saveStep, Bool.not_false, if_true, hcalls]
          cases save st.saveCalls m with
          | none => simp [hproc, herr]
          | some e => simp [hproc, herr]
        · cases changed <;> cases reverse <;> simp [saveStep, countChanged]

/-- The loop from any state: it panics exactly when the codec step of some record panics;
otherwise it ends having visited every record, each counted once as processed or as an
error; the errors are the failed codec steps and, unless the run is dry, the failed saves;
the save calls are, unless the run is dry, the records whose codec step did not fail, in
order. -/
theorem loop_accounting (L : Lib) (es : EncryptionService) (rand : Rand) (save : Store)
    (reverse dryRun : Bool) :
    ∀ (msgs : List Message) (st : Run),
      match mainLoop L es rand save reverse dryRun msgs st with
      | .panic => anyCodecPanic L es rand reverse st.seen msgs = true
      | .ret st1 =>
        anyCodecPanic L es rand reverse st.seen msgs = false ∧
        st1.seen = st.seen + msgs.length ∧
        st1.processedMessages + st1.errors
          = st.processedMessages + st.errors + msgs.length ∧
        st1.errors = st.errors + countCodecErrors L es rand reverse st.seen msgs +
          (if dryRun then 0
           else countSaveErrors save st.saveCalls
                  (expectedSaves L es rand reverse st.seen msgs)) ∧
        st1.saveCalls = st.saveCalls ++
          (if dryRun then [] else expectedSaves L es rand reverse st.seen msgs) := by
  intro msgs
  induction msgs with
  | nil =>
    intro st
    simp [mainLoop, anyCodecPanic, countCodecErrors, expectedSaves, countSaveErrors]
  | cons msg rest ih =>
    intro st
    simp only [mainLoop, processMessage_eq, anyCodecPanic, countCodecErrors, expectedSaves]
    cases hc : codecStep L es (rand st.seen) reverse msg with
    | panic => simp
    | ret r =>
      cases r with
      | failed =>
        have := ih (codecError st msg)
        simp only []
        revert this
        cases mainLoop L es rand save reverse dryRun rest (codecError st msg) with
        | panic => simp [codecError]
        | ret st1 =>
          simp only [codecError, Bool.false_or, List.nil_append, List.length_cons]
          rintro ⟨h1, h2, h3, h4, h5⟩
          refine ⟨h1, by omega, by omega, by omega, h5⟩
      | done m changed =>
        have hseen : ∀ b, (saveStep save b (countChanged reverse changed st) msg m).seen
            = st.seen + 1 := by
          intro b
          cases b <;> cases changed <;> cases reverse <;> simp [saveStep, countChanged] <;>
            split <;> rfl
        cases dryRun
        · have := ih (saveStep save false (countChanged reverse changed st) msg m)
          simp only []
          revert this
          rw [hseen false]
          have hcalls : (countChanged reverse changed st).saveCalls = st.saveCalls := by
            cases changed <;> cases reverse <;> rfl
          have herr : (countChanged reverse changed st).errors = st.errors := by
            cases changed <;> cases reverse <;> rfl
          have hproc : (countChanged reverse changed st).processedMessages
              = st.processedMessages := by
            cases changed <;> cases reverse <;> rfl
          cases mainLoop L es rand save reverse false rest
              (saveStep save false (countChanged reverse changed st) msg m) with
          | panic => simp
          | ret st1 =>
            simp only [Bool.false_or, Bool.false_eq_true, if_false, List.singleton_append,
              List.length_cons, countSaveErrors, saveStep, Bool.not_false, if_true, hcalls]
            cases hs : save st.saveCalls m with
            | none =>
              simp only [hproc, herr, List.append_assoc, List.singleton_append, List.append_eq,
                List.nil_append]
              rintro ⟨h1, h2, h3, h4, h5⟩
              refine ⟨h1, by omega, by omega, by omega, h5⟩
            | some e =>
              simp only [hproc, herr, List.append_assoc, List.singleton_append, List.append_eq,
                List.nil_append]
              rintro ⟨h1, h2, h3, h4, h5⟩
              refine ⟨h1, by omega, by omega, by omega, h5⟩
        · have := ih (saveStep save true (countChanged reverse changed st) msg m)
          simp only []
          revert this
          rw [hseen true]
          have hcalls : (countChanged reverse changed st).saveCalls = st.saveCalls := by
            cases changed <;> cases reverse <;> rfl
          have herr : (countChanged reverse changed st).errors = st.errors := by
            cases changed <;> cases reverse <;> rfl
          have hproc : (countChanged reverse changed st).processedMessages
              = st.processedMessages := by
            cases changed <;> cases reverse <;> rfl
          cases mainLoop L es rand save reverse true rest
              (saveStep save true (countChanged reverse changed st) msg m) with
          | panic => simp
          | ret st1 =>
            simp only [Bool.false_or, if_true, List.append_nil, List.length_cons, saveStep,
              Bool.not_true, Bool.false_eq_true, if_false, hcalls, hproc, herr, Nat.add_zero]
            rintro ⟨h1, h2, h3, h4, h5⟩
            refine ⟨h1, by omega, by omega, by omega, h5⟩

/-- The codec step keeps the identifier of the record. -/
theorem codecStep_id (L : Lib) (es : EncryptionService) (draw : Option Bytes) (reverse : Bool)
    (msg m : Message) (changed : Bool)
    (h : codecStep L es draw reverse msg = .ret (.done m changed)) : m.Id = msg.Id := by
  unfold codecStep at h
  split at h <;> split at h
  · split at h
    · cases h
    · split at h
      · cases h
      · injection h with h; injection h with h1 _; rw [← h1]
  · injection h with h; injection h with h1 _; rw [← h1]
  · split at h
    · cases h
    · split at h
      · cases h
      · injection h with h; injection h with h1 _; rw [← h1]
  · injection h with h; injection h with h1 _; rw [← h1]

/-- The identifiers of the expected saves are, in order, identifiers of the records. -/
theorem expectedSaves_ids (L : Lib) (es : EncryptionService) (rand : Rand) (reverse : Bool) :
    ∀ (msgs : List Message) (i : Nat),
      List.Sublist ((expectedSaves L es rand reverse i msgs).map Message.Id)
        (msgs.map Message.Id) := by
  intro msgs
  induction msgs with
  | nil => intro i; simp [expectedSaves]
  | cons msg rest ih =>
    intro i
    simp only [expectedSaves, List.map_append, List.map_cons]
    cases hc : codecStep L es (rand i) reverse msg with
    | panic => simpa using (ih (i + 1)).cons msg.Id
    | ret r =>
      cases r with
      | failed => simpa using (ih (i + 1)).cons msg.Id
      | done m changed =>
        rw [← codecStep_id L es (rand i) reverse msg m changed hc]
        simpa using (ih (i + 1)).cons₂ m.Id

/-- The codec step skips a record that the classifier puts on the side the mode leaves
alone (classified as encrypted in forward mode, not classified in reverse mode): the record
stays as it is. -/
theorem codecStep_skip (L : Lib) (es : EncryptionService) (draw : Option Bytes)
    (reverse : Bool) (msg : Message) (h : isEncrypted L msg.Content = !reverse) :
    codecStep L es draw reverse msg = .ret (.done msg false) := by
  cases reverse <;> simp at h <;> simp [codecStep, h]

set_option maxRecDepth 100000 in
/-- C11: accounting of a run, and its evaluation at an input on which the run panics.  For
every list of records, mode, `dryRun` flag, service, random source and store, the run panics
exactly when the codec step of some record panics; otherwise it ends having visited every
record, with `processed + errors = total`, the errors being the failed codec steps and,
unless the run is dry, the failed saves (`processMessage_accounting` is the statement record
by record).  In reverse mode on a record holding the string
`{"data":"AAAA","nonce":"AAAA","encrypted":true}` followed by a plaintext record, the codec
step of the first record panics: the run panics, the second record is not visited, and no
summary is printed. -/
theorem run_accounting :
    (∀ (L : Lib) (es : EncryptionService) (rand : Rand) (save : Store)
        (reverse dryRun : Bool) (msgs : List Message),
      match runTool L es rand save reverse dryRun msgs with
      | .panic => anyCodecPanic L es rand reverse 0 msgs = true
      | .ret st =>
        anyCodecPanic L es rand reverse 0 msgs = false ∧
        st.seen = msgs.length ∧
        st.processedMessages + st.errors = msgs.length ∧
        st.errors = countCodecErrors L es rand reverse 0 msgs +
          (if dryRun then 0
           else countSaveErrors save [] (expectedSaves L es rand reverse 0 msgs))) ∧
    NewEncryptionService refLib true testKey = (some testService, none) ∧
    codecStep refLib testService (testRand 0) true { Id := 1, Content := .str shortNonceText }
      = .panic ∧
    runTool refLib testService testRand Store.alwaysOk true false shortNonceRecords = .panic ∧
    runTool refLib testService testRand Store.alwaysOk true true shortNonceRecords = .panic ∧
    report shortNonceRecords
      (runTool refLib testService testRand Store.alwaysOk true false shortNonceRecords)
      = none := by
  refine ⟨?_, by decide, by rfl, by rfl, by rfl, by rfl⟩
  intro L es rand save reverse dryRun msgs
  have := loop_accounting L es rand save reverse dryRun msgs Run.init
  unfold runTool
  revert this
  cases mainLoop L es rand save reverse dryRun msgs Run.init with
  | panic => simp [Run.init]
  | ret st =>
    simp only [Run.init, Nat.zero_add, List.nil_append]
    rintro ⟨h1, h2, h3, h4, _⟩
    exact ⟨h1, h2, h3, h4⟩

set_option maxRecDepth 100000 in
/-- C19: the save trace of a run that is not dry, and its evaluation at an input on which the
run panics.  For every list of records, mode, service, random source and store, the run
panics exactly when the codec step of some record panics; otherwise the save calls are, in
the order of the list, the records whose codec step did not fail, each once, as the codec
step left it; a record the classifier makes the mode skip is left as it is by the codec
step, and so is saved unchanged.  In reverse mode on a record holding the string
`{"data":"AAAA","nonce":"AAAA","encrypted":true}` followed by a plaintext record, the second
record is one the codec step skips and that is expected to be saved, but the run panics on
the first and makes no save call for it. -/
theorem save_trace :
    (∀ (L : Lib) (es : EncryptionService) (rand : Rand) (save : Store) (reverse : Bool)
        (msgs : List Message),
      match runTool L es rand save reverse false msgs with
      | .panic => anyCodecPanic L es rand reverse 0 msgs = true
      | .ret st =>
        anyCodecPanic L es rand reverse 0 msgs = false ∧
        st.saveCalls = expectedSaves L es rand reverse 0 msgs) ∧
    (∀ (L : Lib) (es : EncryptionService) (rand : Rand) (reverse : Bool)
        (msgs : List Message),
      List.Sublist ((expectedSaves L es rand reverse 0 msgs).map Message.Id)
        (msgs.map Message.Id)) ∧
    (∀ (L : Lib) (es : EncryptionService) (draw : Option Bytes) (reverse : Bool)
        (msg : Message), isEncrypted L msg.Content = (!reverse) →
      codecStep L es draw reverse msg = .ret (.done msg false)) ∧
    NewEncryptionService refLib true testKey = (some testService, none) ∧
    (expectedSaves refLib testService testRand true 0 shortNonceRecords).map Message.Id
      = [2] ∧
    runTool refLib testService testRand Store.alwaysOk true false shortNonceRecords
      = .panic := by
  refine ⟨?_, fun L es rand reverse msgs => expectedSaves_ids L es rand reverse msgs 0,
    codecStep_skip, by decide, by rfl, by rfl⟩
  intro L es rand save reverse msgs
  have := loop_accounting L es rand save reverse false msgs Run.init
  unfold runTool
  revert this
  cases mainLoop L es rand save reverse false msgs Run.init with
  | panic => simp [Run.init]
  | ret st =>
    simp only [Run.init, List.nil_append, Bool.false_eq_true, if_false]
    rintro ⟨h1, _, _, _, h5⟩
    exact ⟨h1, h5⟩

/-! ## Two reverse runs -/

/-- The codec step in reverse mode on a record classified as encrypted whose decryption
returns an error: it fails. -/
theorem codecStep_reverse_error (L : Lib) (es : EncryptionService) (draw : Option Bytes)
    (msg : Message) (r : GoRet) (h : isEncrypted L msg.Content = true)
    (hd : es.DecryptContent L msg.Content = .ret r) (he : r.err ≠ none) :
    codecStep L es draw true msg = .ret .failed := by
  obtain ⟨e, he1⟩ := Option.ne_none_iff_exists'.mp he
  simp [codecStep, h, hd, he1]

/-- The codec step in reverse mode on a record classified as encrypted whose decryption
returns a value and no error: the record holds that value. -/
theorem codecStep_reverse_ok (L : Lib) (es : EncryptionService) (draw : Option Bytes)
    (msg : Message) (r : GoRet) (h : isEncrypted L msg.Content = true)
    (hd : es.DecryptContent L msg.Content = .ret r) (he : r.err = none) :
    codecStep L es draw true msg = .ret (.done { Id := msg.Id, Content := r.val } true) := by
  simp [codecStep, h, hd, he]

/-- A reverse run that saves into a store whose saves succeed, when no decryption panics and
every value a decryption returns without error is not classified as encrypted: the run ends,
and the store then holds records each of which is not classified as encrypted or has a
decryption that returns an error; the error counter has grown by the number of stored records
classified as encrypted. -/
theorem reverse_loop (L : Lib) (es : EncryptionService) (rand : Rand) :
    ∀ (msgs : List Message) (st : Run),
      (∀ m ∈ msgs, isEncrypted L m.Content = true → es.DecryptContent L m.Content ≠ .panic) →
      (∀ m ∈ msgs, ∀ v, isEncrypted L m.Content = true →
        es.DecryptContent L m.Content = .ret { val := v, err := none } →
        isEncrypted L v = false) →
      ∃ st1 new, mainLoop L es rand Store.alwaysOk true false msgs st = .ret st1 ∧
        st1.stored = st.stored ++ new ∧ new.length = msgs.length ∧
        (∀ m1 ∈ new, isEncrypted L m1.Content = false ∨
          ∃ r, es.DecryptContent L m1.Content = .ret r ∧ r.err ≠ none) ∧
        st1.errors = st.errors + new.countP (fun m => isEncrypted L m.Content) := by
  intro msgs
  induction msgs with
  | nil => intro st _ _; exact ⟨st, [], rfl, by simp, rfl, by simp, by simp⟩
  | cons msg rest ih =>
    intro st hp hv
    have hp1 : ∀ m ∈ rest, isEncrypted L m.Content = true →
        es.DecryptContent L m.Content ≠ .panic :=
      fun m hm => hp m (List.mem_cons_of_mem _ hm)
    have hv1 : ∀ m ∈ rest, ∀ v, isEncrypted L m.Content = true →
        es.DecryptContent L m.Content = .ret { val := v, err := none } →
        isEncrypted L v = false :=
      fun m hm => hv m (List.mem_cons_of_mem _ hm)
    simp only [mainLoop, processMessage_eq]
    by_cases h : isEncrypted L msg.Content = true
    · cases hd : es.DecryptContent L msg.Content with
      | panic => exact absurd hd (hp msg (List.mem_cons_self _ _) h)
      | ret r =>
        cases he : r.err with
        | some e =>
          rw [codecStep_reverse_error L es _ msg r h hd (by rw [he]; simp)]
          obtain ⟨st1, new, h1, h2, h3, h4, h5⟩ := ih (codecError st msg) hp1 hv1
          refine ⟨st1, msg :: new, h1, by simpa [codecError] using h2, by simp [h3], ?_, ?_⟩
          · intro m1 hm1
            rcases List.mem_cons.mp hm1 with rfl | hm1
            · exact Or.inr ⟨r, hd, by rw [he]; simp⟩
            · exact h4 m1 hm1
          · simp [codecError, h] at h5 ⊢; omega
        | none =>
          rw [codecStep_reverse_ok L es _ msg r h hd he]
          have hval : isEncrypted L r.val = false := by
            apply hv msg (List.mem_cons_self _ _) r.val h
            rw [hd]
            cases r
            simp only at he
            subst he
            rfl
          obtain ⟨st1, new, h1, h2, h3, h4, h5⟩ :=
            ih (saveStep Store.alwaysOk false (countChanged true true st) msg
                  { Id := msg.Id, Content := r.val }) hp1 hv1
          refine ⟨st1, { Id := msg.Id, Content := r.val } :: new, h1,
            by simpa [saveStep, countChanged, Store.alwaysOk] using h2, by simp [h3], ?_, ?_⟩
          · intro m1 hm1
            rcases List.mem_cons.mp hm1 with rfl | hm1
            · exact Or.inl hval
            · exact h4 m1 hm1
          · simpa [saveStep, countChanged, Store.alwaysOk, hval] using h5
    · simp only [Bool.not_eq_true] at h
      rw [codecStep_skip L es _ true msg (by simpa using h)]
      obtain ⟨st1, new, h1, h2, h3, h4, h5⟩ :=
        ih (saveStep Store.alwaysOk false (countChanged true false st) msg msg) hp1 hv1
      refine ⟨st1, msg :: new, h1,
        by simpa [saveStep, countChanged, Store.alwaysOk] using h2, by simp [h3], ?_, ?_⟩
      · intro m1 hm1
        rcases List.mem_cons.mp hm1 with rfl | hm1
        · exact Or.inl h
        · exact h4 m1 hm1
      · simpa [saveStep, countChanged, Store.alwaysOk, h] using h5

/-- A reverse run that saves into a store whose saves succeed, over records each of which is
not classified as encrypted or has a decryption that returns an error: the run ends, decrypts
nothing, counts the first kind as processed and the second as errors, and leaves the store as
it was. -/
theorem reverse_loop_settled (L : Lib) (es : EncryptionService) (rand : Rand) :
    ∀ (msgs : List Message) (st : Run),
      (∀ m ∈ msgs, isEncrypted L m.Content = false ∨
        ∃ r, es.DecryptContent L m.Content = .ret r ∧ r.err ≠ none) →
      ∃ st1, mainLoop L es rand Store.alwaysOk true false msgs st = .ret st1 ∧
        st1.decryptedMessages = st.decryptedMessages ∧
        st1.errors = st.errors + msgs.countP (fun m => isEncrypted L m.Content) ∧
        st1.processedMessages + st1.errors = st.processedMessages + st.errors + msgs.length ∧
        st1.stored = st.stored ++ msgs := by
  intro msgs
  induction msgs with
  | nil => intro st _; exact ⟨st, rfl, rfl, by simp, by simp, by simp⟩
  | cons msg rest ih =>
    intro st hall
    have hrest : ∀ m ∈ rest, isEncrypted L m.Content = false ∨
        ∃ r, es.DecryptContent L m.Content = .ret r ∧ r.err ≠ none :=
      fun m hm => hall m (List.mem_cons_of_mem _ hm)
    simp only [mainLoop, processMessage_eq]
    by_cases h : isEncrypted L msg.Content = true
    · obtain ⟨r, hd, he⟩ : ∃ r, es.DecryptContent L msg.Content = .ret r ∧ r.err ≠ none := by
        rcases hall msg (List.mem_cons_self _ _) with h1 | h1
        · rw [h] at h1; cases h1
        · exact h1
      rw [codecStep_reverse_error L es _ msg r h hd he]
      obtain ⟨st1, h1, h2, h3, h4, h5⟩ := ih (codecError st msg) hrest
      refine ⟨st1, h1, by simpa [codecError] using h2, ?_, ?_, by simpa [codecError] using h5⟩
      · simp [codecError, h] at h3 ⊢; omega
      · simp [codecError] at h4 ⊢; omega
    · simp only [Bool.not_eq_true] at h
      rw [codecStep_skip L es _ true msg (by simpa using h)]
      obtain ⟨st1, h1, h2, h3, h4, h5⟩ :=
        ih (saveStep Store.alwaysOk false (countChanged true false st) msg msg) hrest
      refine ⟨st1, h1, by simpa [saveStep, countChanged, Store.alwaysOk] using h2, ?_, ?_,
        by simpa [saveStep, countChanged, Store.alwaysOk] using h5⟩
      · simpa [saveStep, countChanged, Store.alwaysOk, h] using h3
      · simp [saveStep, countChanged, Store.alwaysOk] at h4 ⊢; omega

/-- Two reverse runs.  With a store whose saves succeed, when no
decryption of the first run panics and every value a decryption of the first run returns
without error is not classified as encrypted: the first reverse run ends, and a second
reverse run over what the store then holds ends too, reports `decrypted = 0` and as many
errors as the first run, and leaves the store as it was. -/
theorem reverse_twice_of_plain (L : Lib) (es : EncryptionService) (rand1 rand2 : Rand)
    (msgs : List Message)
    (hpanic : ∀ m ∈ msgs, isEncrypted L m.Content = true →
      es.DecryptContent L m.Content ≠ .panic)
    (hplain : ∀ m ∈ msgs, ∀ v, isEncrypted L m.Content = true →
      es.DecryptContent L m.Content = .ret { val := v, err := none } →
      isEncrypted L v = false) :
    ∃ st1 st2,
      runTool L es rand1 Store.alwaysOk true false msgs = .ret st1 ∧
      st1.stored.length = msgs.length ∧
      runTool L es rand2 Store.alwaysOk true false st1.stored = .ret st2 ∧
      st2.decryptedMessages = 0 ∧ st2.errors = st1.errors ∧
      st2.processedMessages + st2.errors = msgs.length ∧
      st2.stored = st1.stored := by
  obtain ⟨st1, new, h1, h2, h3, h4, h5⟩ := reverse_loop L es rand1 msgs Run.init hpanic hplain
  have hstored : st1.stored = new := by simpa [Run.init] using h2
  obtain ⟨st2, g1, g2, g3, g4, g5⟩ := reverse_loop_settled L es rand2 new Run.init h4
  refine ⟨st1, st2, h1, by rw [hstored, h3], by rw [hstored]; exact g1,
    by simpa [Run.init] using g2, ?_, ?_, ?_⟩
  · have e1 : st1.errors = new.countP (fun m => isEncrypted L m.Content) := by
      simpa [Run.init] using h5
    have e2 : st2.errors = new.countP (fun m => isEncrypted L m.Content) := by
      simpa [Run.init] using g3
    rw [e1, e2]
  · have : st2.processedMessages + st2.errors = new.length := by simpa [Run.init] using g4
    rw [this, h3]
  · rw [hstored]; simpa [Run.init] using g5

set_option maxRecDepth 100000 in
/-- C13 as stated fails on an envelope whose plaintext is a string that serialises an
envelope.  `envelopeText` is the serialisation of the envelope of `Hello, World!`;
`EncryptContent` of the string `envelopeText` returns `nestedEnvelope`.  `DecryptContent` of
`nestedEnvelope` succeeds and returns the string `envelopeText`, which `isEncrypted`
classifies as encrypted.  A reverse run over the record holding `nestedEnvelope` reports
`decrypted = 1`, and a second reverse run over what was saved reports `decrypted = 1` again,
not 0. -/
theorem reverse_twice_counterexample :
    NewEncryptionService refLib true testKey = (some testService, none) ∧
    testService.EncryptContent refLib (some testNonce) (.str envelopeText)
      = .ret { val := .envelope (some nestedEnvelope), err := none } ∧
    testService.DecryptContent refLib (.envelope (some nestedEnvelope))
      = .ret { val := .str envelopeText, err := none } ∧
    isEncrypted refLib (.str envelopeText) = true ∧
    report nestedRecord
        (runTool refLib testService testRand Store.alwaysOk true false nestedRecord)
      = some { total := 1, processed := 1, encrypted := 0, decrypted := 1, errors := 0 } ∧
    reportAfterReverse refLib testService testRand testRand nestedRecord
      = some { total := 1, processed := 1, encrypted := 0, decrypted := 1, errors := 0 } ∧
    (reportAfterReverse refLib testService testRand testRand nestedRecord).map
      (fun r => r.decrypted) ≠ some 0 := by
  refine ⟨by decide, by rfl, by rfl, by decide!, by decide!, by decide!, by decide!⟩

set_option maxRecDepth 100000 in
/-- C9 as stated fails on a content that is not stable under JSON.  One record holding the
integer 2^53 + 1: it marshals (to `9007199254740993`) and is not classified as encrypted; the
forward run encrypts it and the reverse run decrypts it, both without error, but
`json.Unmarshal` reads the decrypted bytes into a `float64`, so the record ends up holding
2^53, whose serialisation `9007199254740992` is not that of the original. -/
theorem forward_then_reverse_counterexample :
    NewEncryptionService refLib true testKey = (some testService, none) ∧
    (∀ m ∈ bigRecord, isEncrypted refLib m.Content = false ∧
      refLib.Marshal m.Content ≠ none) ∧
    serialisations refLib bigRecord = [some (lit "9007199254740993")] ∧
    reportAfterForward refLib testService testRand testRand true bigRecord
      = some { total := 1, processed := 1, encrypted := 0, decrypted := 1, errors := 0 } ∧
    serialisedAfterForwardReverse refLib testService testRand testRand bigRecord
      = some [some (lit "9007199254740992")] ∧
    serialisedAfterForwardReverse refLib testService testRand testRand bigRecord
      ≠ some (serialisations refLib bigRecord) := by
  refine ⟨by decide, ?_, by decide!, by decide!, by decide!, by decide!⟩
  intro m hm
  simp only [bigRecord, List.mem_singleton] at hm
  subst hm
  exact ⟨by decide, by decide⟩

/-- C18, as amended: round trip through the serialised string.  On a service returned by
`NewEncryptionService(true, key)`, for a content that marshals and a drawn nonce of twelve
bytes, the envelope `EncryptContent` returns has a serialisation, and `DecryptContent` of the
string holding it returns, without error, the value `DecryptContent` of the typed envelope
returns; when unmarshal-then-marshal of the marshalled bytes of the content is stable, the
serialisation of that value is the serialisation of the content.  The library facts assumed:
`Open` inverts `Seal`, base64 decoding inverts encoding, and an envelope with base64 fields
reads back from its serialisation. -/
theorem decrypt_serialised_roundtrip (L : Lib) (key : Bytes) (es : EncryptionService)
    (hnew : NewEncryptionService L true key = (some es, none))
    (haead : L.OpenInvertsSeal) (hb64 : L.DecodeInvertsEncode) (hread : L.EnvelopesReadBack)
    (c : Content) (hm : L.Marshal c ≠ none) (nonce : Bytes) (hn : nonce.length = 12) :
    ∃ env text v,
      es.EncryptContent L (some nonce) c = .ret { val := env, err := none } ∧
      L.Marshal env = some text ∧
      es.DecryptContent L (.str text) = .ret { val := v, err := none } ∧
      es.DecryptContent L env = .ret { val := v, err := none } ∧
      (L.JsonStable c → L.Marshal v = L.Marshal c) := by
  obtain ⟨hen, _, aead, ha⟩ := enabled_of_new L key es hnew
  obtain ⟨b, hb⟩ := Option.ne_none_iff_exists'.mp hm
  obtain ⟨text, hmt, hut⟩ := hread (L.Seal aead nonce b []) nonce
  have htyped := decrypt_sealed_eq L es aead hen ha haead hb64 nonce hn b
  refine ⟨_, text, _, encrypt_eq L es aead hen ha nonce hn c b hb, hmt, ?_, htyped, ?_⟩
  · rw [decrypt_resolved L es hen _ _ (resolve_str L text _ hut rfl) rfl]
    rw [decrypt_resolved L es hen _ _ (resolve_typed L _) rfl] at htyped
    exact htyped
  · intro hjson
    obtain ⟨v, hv, hvm⟩ := hjson b hb
    simp only [hv, hvm, hb]

set_option maxRecDepth 100000 in
/-- C18, as amended, on the reference library: the string `Hello, World!`, whose envelope
serialises to `envelopeText`; the string holding that text decrypts to `Hello, World!`. -/
theorem decrypt_serialised_roundtrip_witness :
    NewEncryptionService refLib true testKey = (some testService, none) ∧
    refLib.OpenInvertsSeal ∧ refLib.DecodeInvertsEncode ∧ refLib.EnvelopesReadBack ∧
    refLib.Marshal (.str (lit "Hello, World!")) ≠ none ∧ testNonce.length = 12 ∧
    (∃ env text v,
      testService.EncryptContent refLib (some testNonce) (.str (lit "Hello, World!"))
        = .ret { val := env, err := none } ∧
      refLib.Marshal env = some text ∧
      testService.DecryptContent refLib (.str text) = .ret { val := v, err := none } ∧
      testService.DecryptContent refLib env = .ret { val := v, err := none } ∧
      (refLib.JsonStable (.str (lit "Hello, World!")) →
        refLib.Marshal v = refLib.Marshal (.str (lit "Hello, World!")))) ∧
    refLib.JsonStable (.str (lit "Hello, World!")) ∧
    testService.DecryptContent refLib (.str envelopeText)
      = .ret { val := .str (lit "Hello, World!"), err := none } :=
  have hnew : NewEncryptionService refLib true testKey = (some testService, none) := by decide
  have hm : refLib.Marshal (.str (lit "Hello, World!")) ≠ none := by decide
  ⟨hnew, refLib_openInvertsSeal, refLib_decodeInvertsEncode, refLib_envelopesReadBack, hm,
    by decide,
    decrypt_serialised_roundtrip refLib testKey testService hnew refLib_openInvertsSeal
      refLib_decodeInvertsEncode refLib_envelopesReadBack _ hm testNonce (by decide),
    refLib_jsonStable_str _, by rfl⟩

set_option maxRecDepth 100000 in
/-- C18 as stated fails on a content that is not stable under JSON.  The integer 2^53 + 1
marshals to `9007199254740993`; `EncryptContent` returns `bigEnvelope`; `DecryptContent` of the
string holding the serialisation of `bigEnvelope` returns, without error, the number 2^53,
whose serialisation `9007199254740992` is not that of the content. -/
theorem decrypt_serialised_roundtrip_counterexample :
    NewEncryptionService refLib true testKey = (some testService, none) ∧
    refLib.Marshal bigNumber = some (lit "9007199254740993") ∧
    testService.EncryptContent refLib (some testNonce) bigNumber
      = .ret { val := .envelope (some bigEnvelope), err := none } ∧
    refLib.Marshal (.envelope (some bigEnvelope)) = some (marshalEncryptedContent bigEnvelope) ∧
    testService.DecryptContent refLib (.str (marshalEncryptedContent bigEnvelope))
      = .ret { val := .num 9007199254740992, err := none } ∧
    refLib.Marshal (.num 9007199254740992) = some (lit "9007199254740992") ∧
    refLib.Marshal (.num 9007199254740992) ≠ refLib.Marshal bigNumber := by
  refine ⟨by decide, by decide!, by rfl, rfl, by rfl, by decide!, by decide!⟩

/-! ## Dry runs that crash -/

/-- The outcome of the loop is the one `loopTrace` reports. -/
theorem mainLoop_eq_loopTrace (L : Lib) (es : EncryptionService) (rand : Rand) (save : Store)
    (reverse dryRun : Bool) :
    ∀ (msgs : List Message) (st : Run),
      mainLoop L es rand save reverse dryRun msgs st =
        if (loopTrace L es rand save reverse dryRun msgs st).2 then .panic
        else .ret (loopTrace L es rand save reverse dryRun msgs st).1 := by
  intro msgs
  induction msgs with
  | nil => intro st; rfl
  | cons msg rest ih =>
    intro st
    simp only [mainLoop, loopTrace]
    cases processMessage L es rand save reverse dryRun st msg with
    | panic => rfl
    | ret st1 => exact ih st1

/-- A dry run makes no save call, whether it ends or panics. -/
theorem loopTrace_dry_saves (L : Lib) (es : EncryptionService) (rand : Rand) (save : Store)
    (reverse : Bool) :
    ∀ (msgs : List Message) (st : Run),
      (loopTrace L es rand save reverse true msgs st).1.saveCalls = st.saveCalls := by
  intro msgs
  induction msgs with
  | nil => intro st; rfl
  | cons msg rest ih =>
    intro st
    simp only [loopTrace]
    have hacc := processMessage_accounting L es rand save reverse true st msg
    cases hc : codecStep L es (rand st.seen) reverse msg with
    | panic =>
      rw [hc] at hacc
      simp only at hacc
      rw [hacc]
    | ret r =>
      rw [hc] at hacc
      cases r with
      | failed =>
        obtain ⟨st1, h1, _, _, _, h5⟩ := hacc
        rw [h1]
        simp only
        rw [ih st1, h5]
      | done m changed =>
        obtain ⟨st1, h1, _, h3⟩ := hacc
        simp only [if_true] at h3
        rw [h1]
        simp only
        rw [ih st1, h3.2.2]

set_option maxRecDepth 100000 in
/-- C10: dry runs, and their evaluation at an input on which the run panics.  For every list
of records, mode, service, random source and store, a dry run makes no save call, whether it
ends or panics; a dry run and the run that saves into a store whose saves succeed either both
panic or both end, and when they end they report the same processed, encrypted, decrypted
and error counts, the errors being the failed codec steps and the processed count the total
minus that number.  In reverse mode on a record holding the string
`{"data":"AAAA","nonce":"AAAA","encrypted":true}` followed by a plaintext record, no codec
step fails, so the summary claimed has `processed = 2`; but the codec step of the first
record panics, the dry run stops before the first record is counted, and no summary is
printed. -/
theorem dry_run_crash :
    (∀ (L : Lib) (es : EncryptionService) (rand : Rand) (save : Store) (reverse : Bool)
        (msgs : List Message),
      (loopTrace L es rand save reverse true msgs Run.init).1.saveCalls = [] ∧
      runTool L es rand save reverse true msgs =
        (if (loopTrace L es rand save reverse true msgs Run.init).2 then .panic
         else .ret (loopTrace L es rand save reverse true msgs Run.init).1)) ∧
    (∀ (L : Lib) (es : EncryptionService) (rand : Rand) (save : Store) (reverse : Bool)
        (msgs : List Message),
      match runTool L es rand save reverse true msgs,
            runTool L es rand Store.alwaysOk reverse false msgs with
      | .ret d, .ret w =>
        d.saveCalls = [] ∧
        d.encryptedMessages = w.encryptedMessages ∧
        d.decryptedMessages = w.decryptedMessages ∧
        d.processedMessages = w.processedMessages ∧ d.errors = w.errors ∧
        d.errors = countCodecErrors L es rand reverse 0 msgs ∧
        d.processedMessages = msgs.length - countCodecErrors L es rand reverse 0 msgs ∧
        countCodecErrors L es rand reverse 0 msgs ≤ msgs.length
      | .panic, .panic => True
      | _, _ => False) ∧
    NewEncryptionService refLib true testKey = (some testService, none) ∧
    countCodecErrors refLib testService testRand true 0 shortNonceRecords = 0 ∧
    runTool refLib testService testRand Store.alwaysOk true true shortNonceRecords = .panic ∧
    report shortNonceRecords
      (runTool refLib testService testRand Store.alwaysOk true true shortNonceRecords)
      = none ∧
    (loopTrace refLib testService testRand Store.alwaysOk true true shortNonceRecords
      Run.init).2 = true ∧
    (loopTrace refLib testService testRand Store.alwaysOk true true shortNonceRecords
      Run.init).1.seen = 0 := by
  refine ⟨fun L es rand save reverse msgs =>
      ⟨loopTrace_dry_saves L es rand save reverse msgs Run.init,
        mainLoop_eq_loopTrace L es rand save reverse true msgs Run.init⟩,
    dry_run_counts, by decide, by rfl, by rfl, by rfl, by rfl, by rfl⟩

/-- The reference reader never returns a typed envelope. -/
theorem parseValue_not_envelope (fuel : Nat) (s : Bytes) (v : Content) (r : Bytes)
    (h : parseValue fuel s = some (v, r)) : ∀ p, v ≠ .envelope p := by
  intro p hv
  subst hv
  cases fuel with
  | zero => simp [parseValue] at h
  | succ f =>
    unfold parseValue at h
    split at h
    all_goals first
      | (injection h with h; injection h with h1 _; cases h1)
      | (split at h <;> first
          | (injection h with h; injection h with h1 _; cases h1)
          | cases h
          | (split at h <;> first
              | (injection h with h; injection h with h1 _; cases h1)
              | cases h))

/-- On the reference library `json.Unmarshal` into an `any` never stores a typed envelope. -/
theorem refLib_unmarshalGivesJson : refLib.UnmarshalGivesJson := by
  intro b v h p hv
  have h1 : (parseJSON b).map toAny = some v := h
  cases hp : parseJSON b with
  | none => rw [hp] at h1; cases h1
  | some c =>
    rw [hp] at h1
    have hc : ∀ q, c ≠ .envelope q := by
      unfold parseJSON at hp
      split at hp
      · rename_i c1 rest hpv
        split at hp
        · injection hp with hp
          subst hp
          exact parseValue_not_envelope _ _ _ _ hpv
        · cases hp
      · cases hp
    simp only [Option.map_some', Option.some.injEq] at h1
    subst hv
    cases c with
    | envelope q => exact hc q rfl
    | nil => simp [toAny] at h1
    | bool _ => simp [toAny] at h1
    | num _ => simp [toAny] at h1
    | str _ => simp [toAny] at h1
    | arr _ => simp [toAny] at h1
    | map _ => simp [toAny] at h1
    | chan => simp [toAny] at h1

/-- `DecryptContent` on an enabled service holding a cipher, for a content that resolves to
an envelope with the flag set whose nonce, if it decodes, has twelve bytes: there is no panic,
and a value returned without error is one the opened bytes unmarshal into, or a string. -/
theorem decrypt_outcomes (L : Lib) (es : EncryptionService) (aead : AEAD)
    (hen : es.enabled = true) (ha : es.aead = some aead)
    (c : Content) (ec : EncryptedContent) (hres : resolveEnvelope L c = some (some ec))
    (hflag : ec.Encrypted = true)
    (hlen : ∀ n, L.DecodeString ec.Nonce = some n → n.length = 12) :
    es.DecryptContent L c ≠ .panic ∧
    ∀ v, es.DecryptContent L c = .ret { val := v, err := none } →
      (∃ b, L.UnmarshalAny b = some v) ∨ (∃ b, v = .str b) := by
  rw [decrypt_resolved L es hen c ec hres hflag]
  cases hd : L.DecodeString ec.Data with
  | none => exact ⟨fun h => Outcome.noConfusion h, fun v h => by cases h⟩
  | some data =>
    cases hn : L.DecodeString ec.Nonce with
    | none => exact ⟨fun h => Outcome.noConfusion h, fun v h => by cases h⟩
    | some nonce =>
      have h12 := hlen nonce hn
      simp only [ha, gcmOpen, AEAD.NonceSize, gcmStandardNonceSize, h12, if_true]
      cases L.Open aead nonce data [] with
      | none => exact ⟨fun h => Outcome.noConfusion h, fun v h => by cases h⟩
      | some opened =>
        cases hu : L.UnmarshalAny opened with
        | none =>
          refine ⟨by simp [hu], fun v h => Or.inr ⟨opened, ?_⟩⟩
          simp [hu] at h
          exact h.symm
        | some w =>
          refine ⟨by simp [hu], fun v h => Or.inl ⟨opened, ?_⟩⟩
          simp [hu] at h
          rw [hu, h]

/-- A content classified as encrypted resolves to an envelope whose flag is set, when every
typed pointer it may be is non-nil with the flag set. -/
theorem resolve_of_classified (L : Lib) (c : Content)
    (hc : isEncrypted L c = true)
    (ht : ∀ p, c = .envelope p → ∃ ec, p = some ec ∧ ec.Encrypted = true) :
    ∃ ec, resolveEnvelope L c = some (some ec) ∧ ec.Encrypted = true := by
  cases c with
  | envelope p =>
    obtain ⟨ec, rfl, hf⟩ := ht p rfl
    exact ⟨ec, rfl, hf⟩
  | str s =>
    simp only [isEncrypted] at hc
    cases hu : L.UnmarshalEncryptedContent s with
    | none => simp [hu] at hc
    | some ec =>
      simp only [hu] at hc
      exact ⟨ec, resolve_str L s ec hu hc, hc⟩
  | nil => simp [isEncrypted] at hc
  | bool b => simp [isEncrypted] at hc
  | num n => simp [isEncrypted] at hc
  | arr xs => simp [isEncrypted] at hc
  | map kvs => simp [isEncrypted] at hc
  | chan => simp [isEncrypted] at hc

/-- A value that is not a typed envelope and not a string is not classified as encrypted. -/
theorem isEncrypted_of_json (L : Lib) (v : Content)
    (henv : ∀ p, v ≠ .envelope p)
    (hstr : ∀ s, v = .str s → isEncrypted L (.str s) = false) :
    isEncrypted L v = false := by
  cases v with
  | envelope p => exact absurd rfl (henv p)
  | str s => exact hstr s rfl
  | nil => rfl
  | bool b => rfl
  | num n => rfl
  | arr xs => rfl
  | map kvs => rfl
  | chan => rfl

/-- C13, as amended: two reverse runs.  For a service returned by
`NewEncryptionService(true, key)` and a store whose saves succeed, over records in which every
typed envelope is a non-nil pointer with the flag set, every envelope has a nonce that decodes
to twelve bytes, and no envelope decrypts to a string that is itself classified as encrypted:
no decryption of a record classified as encrypted panics, and every value one returns
without error (nil, a boolean, a number, a sequence, a map, a string) is not classified as
encrypted; the first reverse run ends, and a second reverse run over what the store then
holds ends too, reports `decrypted = 0` and as many errors as the first run, and leaves the
store as it was.  The library fact assumed: unmarshalling into an `interface{}` never yields
a `*EncryptedContent`. -/
theorem reverse_twice (L : Lib) (key : Bytes) (es : EncryptionService)
    (hnew : NewEncryptionService L true key = (some es, none))
    (hshape : L.UnmarshalGivesJson)
    (rand1 rand2 : Rand) (msgs : List Message)
    (htyped : ∀ m ∈ msgs, ∀ p, m.Content = .envelope p →
      ∃ ec, p = some ec ∧ ec.Encrypted = true)
    (hnonce : ∀ m ∈ msgs, ∀ ec n, resolveEnvelope L m.Content = some (some ec) →
      L.DecodeString ec.Nonce = some n → n.length = 12)
    (hnest : ∀ m ∈ msgs, ∀ s, isEncrypted L m.Content = true →
      es.DecryptContent L m.Content = .ret { val := .str s, err := none } →
      isEncrypted L (.str s) = false) :
    (∀ m ∈ msgs, isEncrypted L m.Content = true →
      es.DecryptContent L m.Content ≠ .panic ∧
      ∀ v, es.DecryptContent L m.Content = .ret { val := v, err := none } →
        isEncrypted L v = false) ∧
    ∃ st1 st2,
      runTool L es rand1 Store.alwaysOk true false msgs = .ret st1 ∧
      st1.stored.length = msgs.length ∧
      runTool L es rand2 Store.alwaysOk true false st1.stored = .ret st2 ∧
      st2.decryptedMessages = 0 ∧ st2.errors = st1.errors ∧
      st2.processedMessages + st2.errors = msgs.length ∧
      st2.stored = st1.stored := by
  obtain ⟨hen, _, aead, ha⟩ := enabled_of_new L key es hnew
  have hout : ∀ m ∈ msgs, isEncrypted L m.Content = true →
      es.DecryptContent L m.Content ≠ .panic ∧
      ∀ v, es.DecryptContent L m.Content = .ret { val := v, err := none } →
        (∃ b, L.UnmarshalAny b = some v) ∨ (∃ b, v = .str b) := by
    intro m hm hc
    obtain ⟨ec, hres, hflag⟩ := resolve_of_classified L m.Content hc (htyped m hm)
    exact decrypt_outcomes L es aead hen ha m.Content ec hres hflag
      (fun n hn => hnonce m hm ec n hres hn)
  have hplain : ∀ m ∈ msgs, ∀ v, isEncrypted L m.Content = true →
      es.DecryptContent L m.Content = .ret { val := v, err := none } →
      isEncrypted L v = false := ?_
  · exact ⟨fun m hm hc => ⟨(hout m hm hc).1, fun v hd => hplain m hm v hc hd⟩,
      reverse_twice_of_plain L es rand1 rand2 msgs (fun m hm hc => (hout m hm hc).1) hplain⟩
  intro m hm v hc hd
  refine isEncrypted_of_json L v ?_ ?_
  · intro p hp
    rcases (hout m hm hc).2 v hd with ⟨b, hb⟩ | ⟨b, hb⟩
    · exact hshape b v hb p hp
    · rw [hb] at hp; cases hp
  · intro s hs
    subst hs
    exact hnest m hm s hc hd

set_option maxRecDepth 100000 in
/-- C13, as amended, on the reference library, on three records (the envelope of
`Hello, World!`, a plaintext string, an envelope whose data was altered): the first reverse
run reports decrypted = 1, processed = 2, errors = 1; the second reports decrypted = 0,
processed = 2, errors = 1. -/
theorem reverse_twice_witness :
    NewEncryptionService refLib true testKey = (some testService, none) ∧
    refLib.UnmarshalGivesJson ∧
    (∀ m ∈ mixedRecords, ∀ p, m.Content = .envelope p →
      ∃ ec, p = some ec ∧ ec.Encrypted = true) ∧
    (∀ m ∈ mixedRecords, ∀ ec n, resolveEnvelope refLib m.Content = some (some ec) →
      refLib.DecodeString ec.Nonce = some n → n.length = 12) ∧
    (∀ m ∈ mixedRecords, ∀ s, isEncrypted refLib m.Content = true →
      testService.DecryptContent refLib m.Content = .ret { val := .str s, err := none } →
      isEncrypted refLib (.str s) = false) ∧
    ((∀ m ∈ mixedRecords, isEncrypted refLib m.Content = true →
      testService.DecryptContent refLib m.Content ≠ .panic ∧
      ∀ v, testService.DecryptContent refLib m.Content = .ret { val := v, err := none } →
        isEncrypted refLib v = false) ∧
    ∃ st1 st2,
      runTool refLib testService testRand Store.alwaysOk true false mixedRecords = .ret st1 ∧
      st1.stored.length = mixedRecords.length ∧
      runTool refLib testService testRand Store.alwaysOk true false st1.stored = .ret st2 ∧
      st2.decryptedMessages = 0 ∧ st2.errors = st1.errors ∧
      st2.processedMessages + st2.errors = mixedRecords.length ∧
      st2.stored = st1.stored) ∧
    report mixedRecords
        (runTool refLib testService testRand Store.alwaysOk true false mixedRecords)
      = some { total := 3, processed := 2, encrypted := 0, decrypted := 1, errors := 1 } ∧
    reportAfterReverse refLib testService testRand testRand mixedRecords
      = some { total := 3, processed := 2, encrypted := 0, decrypted := 0, errors := 1 } :=
  have hnew : NewEncryptionService refLib true testKey = (some testService, none) := by decide
  have hd1 : testService.DecryptContent refLib (.envelope (some helloEnvelope))
      = .ret { val := .str (lit "Hello, World!"), err := none } := by rfl
  have htyped : ∀ m ∈ mixedRecords, ∀ p, m.Content = .envelope p →
      ∃ ec, p = some ec ∧ ec.Encrypted = true := by
    intro m hm p hp
    simp only [mixedRecords, List.mem_cons, List.mem_singleton, List.not_mem_nil, or_false] at hm
    rcases hm with rfl | rfl | rfl
    · cases hp; exact ⟨helloEnvelope, rfl, rfl⟩
    · cases hp
    · cases hp; exact ⟨tamperedEnvelope, rfl, rfl⟩
  have hnonce : ∀ m ∈ mixedRecords, ∀ ec n,
      resolveEnvelope refLib m.Content = some (some ec) →
      refLib.DecodeString ec.Nonce = some n → n.length = 12 := by
    intro m hm ec n hres hn
    simp only [mixedRecords, List.mem_cons, List.mem_singleton, List.not_mem_nil, or_false] at hm
    rcases hm with rfl | rfl | rfl
    · have e : ec = helloEnvelope := by
        have : some (some helloEnvelope) = some (some ec) := hres
        injection this with this
        injection this with this
        exact this.symm
      subst e
      have : refLib.DecodeString helloEnvelope.Nonce = some testNonce := by decide
      rw [this] at hn
      injection hn with hn
      subst hn
      decide
    · have : resolveEnvelope refLib (.str (lit "hello")) = none := by decide
      rw [this] at hres
      cases hres
    · have e : ec = tamperedEnvelope := by
        have : some (some tamperedEnvelope) = some (some ec) := hres
        injection this with this
        injection this with this
        exact this.symm
      subst e
      have : refLib.DecodeString tamperedEnvelope.Nonce = some testNonce := by decide
      rw [this] at hn
      injection hn with hn
      subst hn
      decide
  have hnest : ∀ m ∈ mixedRecords, ∀ s, isEncrypted refLib m.Content = true →
      testService.DecryptContent refLib m.Content = .ret { val := .str s, err := none } →
      isEncrypted refLib (.str s) = false := by
    intro m hm s hc hd
    simp only [mixedRecords, List.mem_cons, List.mem_singleton, List.not_mem_nil, or_false] at hm
    rcases hm with rfl | rfl | rfl
    · rw [hd1] at hd
      injection hd with hd
      injection hd with hd _
      injection hd with hd
      subst hd
      decide
    · exact absurd hc (by decide)
    · have hd3 : testService.DecryptContent refLib (.envelope (some tamperedEnvelope))
          = .ret { val := .nil, err := some .decrypt } := by rfl
      rw [hd3] at hd
      injection hd with hd
      injection hd with _ hd
      cases hd
  ⟨hnew, refLib_unmarshalGivesJson, htyped, hnonce, hnest,
    reverse_twice refLib testKey testService hnew refLib_unmarshalGivesJson testRand testRand
      mixedRecords htyped hnonce hnest,
    by decide!, by decide!⟩

/-- C14, as amended: the flag is the discriminator away from typed pointers.  For a content
that is not a nil `*EncryptedContent` and not a typed envelope with the flag false,
`isEncrypted` returns true exactly when the content resolves (typed, or parsed from a
string) to an envelope whose flag is true; a string that does not unmarshal, or unmarshals
into a structure whose flag is false, is never classified as encrypted. -/
theorem isEncrypted_discriminator (L : Lib) (c : Content)
    (htyped : ∀ p, c = .envelope p → ∃ ec, p = some ec ∧ ec.Encrypted = true) :
    (isEncrypted L c = true ↔
      ∃ ec, resolveEnvelope L c = some (some ec) ∧ ec.Encrypted = true) ∧
    (∀ s, c = .str s → L.UnmarshalEncryptedContent s = none → isEncrypted L c = false) ∧
    (∀ s ec, c = .str s → L.UnmarshalEncryptedContent s = some ec → ec.Encrypted = false →
      isEncrypted L c = false) := by
  refine ⟨⟨fun hc => resolve_of_classified L c hc htyped, ?_⟩, ?_, ?_⟩
  · rintro ⟨ec, hres, hflag⟩
    cases c with
    | envelope p => rfl
    | str s =>
      simp only [resolveEnvelope] at hres
      cases hu : L.UnmarshalEncryptedContent s with
      | none => simp [hu] at hres
      | some ec1 =>
        simp only [hu] at hres
        by_cases hf : ec1.Encrypted = true
        · simp [isEncrypted, hu, hf]
        · simp [hf] at hres
    | nil => simp [resolveEnvelope] at hres
    | bool b => simp [resolveEnvelope] at hres
    | num n => simp [resolveEnvelope] at hres
    | arr xs => simp [resolveEnvelope] at hres
    | map kvs => simp [resolveEnvelope] at hres
    | chan => simp [resolveEnvelope] at hres
  · rintro s rfl hu
    simp [isEncrypted, hu]
  · rintro s ec rfl hu hf
    simp [isEncrypted, hu, hf]

set_option maxRecDepth 100000 in
/-- C14, as amended, on the reference library: the string that serialises the envelope of
`Hello, World!` is classified as encrypted and resolves to that envelope, whose flag is
true; the serialisation of an envelope with the flag false, and a serialisation without the
`encrypted` key, are not classified. -/
theorem isEncrypted_discriminator_witness :
    (∀ p, Content.str envelopeText = .envelope p → ∃ ec, p = some ec ∧ ec.Encrypted = true) ∧
    ((isEncrypted refLib (.str envelopeText) = true ↔
      ∃ ec, resolveEnvelope refLib (.str envelopeText) = some (some ec) ∧
        ec.Encrypted = true) ∧
    (∀ s, Content.str envelopeText = .str s → refLib.UnmarshalEncryptedContent s = none →
      isEncrypted refLib (.str envelopeText) = false) ∧
    (∀ s ec, Content.str envelopeText = .str s →
      refLib.UnmarshalEncryptedContent s = some ec → ec.Encrypted = false →
      isEncrypted refLib (.str envelopeText) = false)) ∧
    isEncrypted refLib (.str envelopeText) = true ∧
    resolveEnvelope refLib (.str envelopeText) = some (some helloEnvelope) ∧
    helloEnvelope.Encrypted = true ∧
    isEncrypted refLib (.str unflaggedText) = false ∧
    isEncrypted refLib (.str flaglessText) = false ∧
    refLib.UnmarshalEncryptedContent flaglessText
      = some { Data := lit "AAAA", Nonce := lit "AAAA", Encrypted := false } ∧
    refLib.UnmarshalEncryptedContent unflaggedText = some unflaggedEnvelope :=
  have htyped : ∀ p, Content.str envelopeText = .envelope p →
      ∃ ec, p = some ec ∧ ec.Encrypted = true := fun p hp => by cases hp
  ⟨htyped, isEncrypted_discriminator refLib (.str envelopeText) htyped,
    by decide!, by decide!, rfl, by decide!, by decide!, by decide!, by decide!⟩

end Tinode
